import Mathlib

/-!
# Verification of the EdenFS Journal (`eden/fs/journal/Journal.h`)

This file gives a shallow embedding of the Journal: the append-only,
bounded-memory change log described by the repository's specification and
declared in `src/eden/fs/journal/Journal.h`.

The repository ships only the header.  Functions whose bodies appear inline
in the header (`Journal::Journal`, `DeltaState::empty`,
`DeltaState::isFileChangeInFront`, `DeltaState::isFileChangeInBack`,
`DeltaState::appendDelta`, `DeltaState::getFrontSequenceID`) are translated
directly from that source.  Functions that live in the missing
implementation file (`record*`, `compact`, `truncateIfNecessary`,
`accumulateRange`, `flush`, ...) are modelled from the specification; each
such definition says so in its doc comment.

Conventions of the embedding:
* `std::deque` becomes `List`, front of the deque at the head of the list,
  back of the deque at the end of the list.
* machine integers (`uint64_t` sequence numbers, `size_t` byte counts)
  become `Nat`; the Journal only ever increments them, so overflow is not
  modelled.
* the opaque interned `RelativePath` and the opaque fixed-width `Hash`
  become `Nat` (the spec requires only equality and a designated zero).
* the monotonic clock becomes a `Nat` counter held in the journal state.
* `front()` on a possibly-empty deque becomes `List.head?`, so undefined
  accesses surface as `Option`.
-/

/-- Opaque fixed-width content hash: the spec requires only equality and a
designated zero value. -/
abbrev Hash := Nat

/-- The designated "unknown/initial" hash (`kZeroHash`). -/
def kZeroHash : Hash := 0

/-- Opaque interned relative path: the spec requires only equality and
hashing. -/
abbrev RelativePath := Nat

/-- 64-bit monotonic sequence counter; `0` is reserved as "never
assigned". -/
abbrev SequenceNumber := Nat

/-- The kind tag of a file-change delta. -/
inductive FileChangeKind where
  | created
  | removed
  | changed
  | renamed
  | replaced
deriving DecidableEq, Repr

/-- `FileChangeDelta`: `{ sequenceID, time, path1, path2?, kind }`.  For
Renamed/Replaced `path1` is the old name and `path2` the new name; for the
other three kinds only `path1` is set. -/
structure FileChangeJournalDelta where
  sequenceID : SequenceNumber
  time : Nat
  path1 : RelativePath
  path2 : Option RelativePath
  kind : FileChangeKind
deriving DecidableEq, Repr

/-- `HashUpdateDelta`: `{ sequenceID, time, fromHash, toHash, uncleanPaths }`.
`uncleanPaths` is a (possibly empty) set of relative paths, modelled as a
list. -/
structure HashUpdateJournalDelta where
  sequenceID : SequenceNumber
  time : Nat
  fromHash : Hash
  toHash : Hash
  uncleanPaths : List RelativePath
deriving DecidableEq, Repr

/-- Modelled from the spec: the per-delta memory estimate of a file-change
delta.  The exact formula is implementation-defined (the implementation
file is not in the repository); the spec only requires it to be monotone,
so an opaque positive constant is used. -/
def FileChangeJournalDelta.estimateMemoryUsage (_d : FileChangeJournalDelta) : Nat := 100

/-- Modelled from the spec: the per-delta memory estimate of a hash-update
delta; implementation-defined, monotone in the number of unclean paths. -/
def HashUpdateJournalDelta.estimateMemoryUsage (d : HashUpdateJournalDelta) : Nat :=
  100 + 40 * d.uncleanPaths.length

/-- Statistics about the current state of the journal (`JournalStats`). -/
structure JournalStats where
  entryCount : Nat
  earliestTimestamp : Nat
  latestTimestamp : Nat
  maxFilesAccumulated : Nat
deriving DecidableEq, Repr

/-- `kDefaultJournalMemoryLimit` from `Journal.h`. -/
def kDefaultJournalMemoryLimit : Nat := 1000000000

/-- The log's inner state (`Journal::DeltaState` from `Journal.h`): dual
deques of deltas plus the shared sequence counter, the current hash, the
optional stats record, and the memory accounting fields. -/
structure DeltaState where
  nextSequence : SequenceNumber
  fileChangeDeltas : List FileChangeJournalDelta
  hashUpdateDeltas : List HashUpdateJournalDelta
  currentHash : Hash
  stats : Option JournalStats
  memoryLimit : Nat
  deltaMemoryUsage : Nat
deriving DecidableEq, Repr

/-- `DeltaState::empty` from `Journal.h`: both deques are empty. -/
def DeltaState.empty (s : DeltaState) : Bool :=
  s.fileChangeDeltas.isEmpty && s.hashUpdateDeltas.isEmpty

/-- `DeltaState::isFileChangeInFront` from `Journal.h`: when both deques
are non-empty, compare the front sequence numbers; otherwise the file
change deque wins exactly when it alone is non-empty.  `front()` on the
deques is modelled by `List.head?`; the `none` fallback arm is unreachable
in the branch that dereferences, because both deques were tested
non-empty. -/
def DeltaState.isFileChangeInFront (s : DeltaState) : Bool :=
  let isFileChangeEmpty := s.fileChangeDeltas.isEmpty
  let isHashUpdateEmpty := s.hashUpdateDeltas.isEmpty
  if !isFileChangeEmpty && !isHashUpdateEmpty then
    match s.fileChangeDeltas.head?, s.hashUpdateDeltas.head? with
    | some f, some h => decide (f.sequenceID < h.sequenceID)
    | _, _ => false
  else
    !isFileChangeEmpty && isHashUpdateEmpty

/-- `DeltaState::isFileChangeInBack` from `Journal.h`: symmetric to
`isFileChangeInFront`, comparing the back sequence numbers. -/
def DeltaState.isFileChangeInBack (s : DeltaState) : Bool :=
  let isFileChangeEmpty := s.fileChangeDeltas.isEmpty
  let isHashUpdateEmpty := s.hashUpdateDeltas.isEmpty
  if !isFileChangeEmpty && !isHashUpdateEmpty then
    match s.fileChangeDeltas.getLast?, s.hashUpdateDeltas.getLast? with
    | some f, some h => decide (f.sequenceID > h.sequenceID)
    | _, _ => false
  else
    !isFileChangeEmpty && isHashUpdateEmpty

/-- `DeltaState::getFrontSequenceID` from `Journal.h`: the sequence number
of the globally oldest stored delta.  The C++ dereferences `front()`
unconditionally; the embedding returns `none` exactly when that
dereference would be invalid. -/
def DeltaState.getFrontSequenceID (s : DeltaState) : Option SequenceNumber :=
  if s.isFileChangeInFront then
    s.fileChangeDeltas.head?.map (·.sequenceID)
  else
    s.hashUpdateDeltas.head?.map (·.sequenceID)

/-- The multiset of sequence numbers stored across both deques (file
changes first). -/
def DeltaState.allSeqs (s : DeltaState) : List Nat :=
  s.fileChangeDeltas.map (·.sequenceID) ++ s.hashUpdateDeltas.map (·.sequenceID)

/-- Total number of stored deltas across both deques. -/
def DeltaState.numDeltas (s : DeltaState) : Nat :=
  s.fileChangeDeltas.length + s.hashUpdateDeltas.length

/-- Sum of the per-delta memory estimates of all stored deltas. -/
def DeltaState.totalEstimate (s : DeltaState) : Nat :=
  (s.fileChangeDeltas.map (·.estimateMemoryUsage)).sum
    + (s.hashUpdateDeltas.map (·.estimateMemoryUsage)).sum

/-- Minimum of a list of naturals (`0` for the empty list). -/
def listMin : List Nat → Nat
  | [] => 0
  | a :: rest => rest.foldl min a

/-- Maximum of a list of naturals (`0` for the empty list). -/
def listMax : List Nat → Nat
  | [] => 0
  | a :: rest => rest.foldl max a

/-- Decrement `entryCount` when a delta is evicted; modelled from the
spec's "decrement usage and stats accordingly". -/
def dropStats : Option JournalStats → Option JournalStats
  | none => none
  | some j => some { j with entryCount := j.entryCount - 1 }

/-- Modelled from the spec: the stats update on appending one delta
("increment `entryCount`, set `earliestTimestamp` if first, update
`latestTimestamp`"). -/
def bumpStats (st : Option JournalStats) (t : Nat) : Option JournalStats :=
  match st with
  | none => some { entryCount := 1, earliestTimestamp := t, latestTimestamp := t,
                   maxFilesAccumulated := 0 }
  | some j => some { j with entryCount := j.entryCount + 1, latestTimestamp := t }

/-- Modelled from the spec: `DeltaState::popFront` (declared in
`Journal.h`, implemented in the missing file): drop the globally oldest
delta, chosen by `isFileChangeInFront`, from the front of its deque, and
decrement the usage estimate and the stats. -/
def DeltaState.popFront (s : DeltaState) : DeltaState :=
  if s.isFileChangeInFront then
    match s.fileChangeDeltas with
    | [] => s
    | d :: rest =>
      { s with fileChangeDeltas := rest,
               deltaMemoryUsage := s.deltaMemoryUsage - d.estimateMemoryUsage,
               stats := dropStats s.stats }
  else
    match s.hashUpdateDeltas with
    | [] => s
    | d :: rest =>
      { s with hashUpdateDeltas := rest,
               deltaMemoryUsage := s.deltaMemoryUsage - d.estimateMemoryUsage,
               stats := dropStats s.stats }

/-- One fuel-bounded unfolding of the eviction loop.  The fuel only bounds
the iteration count; `truncateIfNecessary` supplies enough fuel for the
loop to reach its fixpoint (each iteration removes exactly one delta). -/
def truncateLoop : Nat → DeltaState → DeltaState
  | 0, s => s
  | Nat.succ n, s =>
    if s.memoryLimit < s.deltaMemoryUsage ∧ 1 < s.numDeltas then
      truncateLoop n s.popFront
    else
      s

/-- Modelled from the spec: `Journal::truncateIfNecessary`: "while
`deltaMemoryUsage > memoryLimit` and more than one delta remains, drop the
globally oldest delta"; per the spec's §8 invariant, a single delta larger
than the limit is retained. -/
def truncateIfNecessary (s : DeltaState) : DeltaState :=
  truncateLoop s.numDeltas s

/-- A file-change delta involves a single path (not Renamed/Replaced). -/
def FileChangeJournalDelta.isOnePath (d : FileChangeJournalDelta) : Bool :=
  match d.kind with
  | .renamed => false
  | .replaced => false
  | _ => true

/-- Modelled from the spec: two file-change deltas describe "exactly the
same single-path single-kind event on the same path"; Renamed/Replaced
never qualify. -/
def isSameAction (a b : FileChangeJournalDelta) : Bool :=
  a.isOnePath && b.isOnePath && decide (a.kind = b.kind) && decide (a.path1 = b.path1)

/-- Modelled from the spec: `Journal::compact(FileChangeJournalDelta&, ...)`:
the incoming delta is compacted iff the tail of the file-change deque
exists and describes the same single-path single-kind event on the same
path; the merge discards the incoming delta, so the deque is unchanged. -/
def tryCompactFileChange (deltas : List FileChangeJournalDelta)
    (d : FileChangeJournalDelta) : Bool :=
  match deltas.getLast? with
  | some tail => isSameAction tail d
  | none => false

/-- Modelled from the spec: `Journal::compact(HashUpdateJournalDelta&, ...)`:
the incoming delta is compacted iff the tail exists, the tail's
`uncleanPaths` is empty, and the incoming delta's `uncleanPaths` is empty;
the merge replaces the tail's `toHash` with the incoming `toHash`.
Returns the merged deque, or `none` when no compaction happens. -/
def tryCompactHashUpdate (deltas : List HashUpdateJournalDelta)
    (d : HashUpdateJournalDelta) : Option (List HashUpdateJournalDelta) :=
  match deltas.getLast? with
  | some tail =>
    if tail.uncleanPaths = [] ∧ d.uncleanPaths = [] then
      some (deltas.dropLast ++ [{ tail with toHash := d.toHash }])
    else
      none
  | none => none

/-- Per-path summary entry of a range query (`existedBefore`,
`existedAfter`). -/
structure PathChangeInfo where
  existedBefore : Bool
  existedAfter : Bool
deriving DecidableEq, Repr

/-- Insert-or-update in the association list backing
`changedFilesInOverlay`:  apply `fUpd` to an existing entry for `p`, or
append `fresh` when `p` is unseen. -/
def upsertPath (m : List (RelativePath × PathChangeInfo)) (p : RelativePath)
    (fUpd : PathChangeInfo → PathChangeInfo) (fresh : PathChangeInfo) :
    List (RelativePath × PathChangeInfo) :=
  match m with
  | [] => [(p, fresh)]
  | (q, info) :: rest =>
    if q = p then (q, fUpd info) :: rest
    else (q, info) :: upsertPath rest p fUpd fresh

/-- Modelled from the spec: the `changedFilesInOverlay` fold, applied to
file-change deltas in sequence order: Created sets `existedAfter := true`;
Removed sets `existedAfter := false` and marks an unseen path as having
existed before; Changed sets both to true when unseen; Renamed/Replaced
remove the old path and create the new one, Replaced additionally marking
the target as previously existing. -/
def applyFileChange (m : List (RelativePath × PathChangeInfo))
    (d : FileChangeJournalDelta) : List (RelativePath × PathChangeInfo) :=
  match d.kind with
  | .created =>
    upsertPath m d.path1 (fun i => { i with existedAfter := true })
      { existedBefore := false, existedAfter := true }
  | .removed =>
    upsertPath m d.path1 (fun i => { i with existedAfter := false })
      { existedBefore := true, existedAfter := false }
  | .changed =>
    upsertPath m d.path1 (fun i => { i with existedAfter := true })
      { existedBefore := true, existedAfter := true }
  | .renamed =>
    let m1 := upsertPath m d.path1 (fun i => { i with existedAfter := false })
      { existedBefore := true, existedAfter := false }
    match d.path2 with
    | some p2 =>
      upsertPath m1 p2 (fun i => { i with existedAfter := true })
        { existedBefore := false, existedAfter := true }
    | none => m1
  | .replaced =>
    let m1 := upsertPath m d.path1 (fun i => { i with existedAfter := false })
      { existedBefore := true, existedAfter := false }
    match d.path2 with
    | some p2 =>
      upsertPath m1 p2 (fun i => { i with existedAfter := true })
        { existedBefore := true, existedAfter := true }
    | none => m1

/-- The `RangeSummary` (`JournalDeltaRange`) produced by
`accumulateRange`. -/
structure JournalDeltaRange where
  fromSequence : Nat
  toSequence : Nat
  fromTime : Nat
  toTime : Nat
  fromHash : Hash
  toHash : Hash
  changedFilesInOverlay : List (RelativePath × PathChangeInfo)
  uncleanPaths : List RelativePath
  isTruncated : Bool
deriving DecidableEq, Repr

/-- Modelled from the spec: `Journal::accumulateRange(limitSequence)`:
summarize every stored delta with `sequenceID ≥ limitSequence` (with `0`
meaning "all"); `none` when no delta satisfies the bound; `isTruncated`
iff `limitSequence > 0` and it is below the earliest stored sequence
number. -/
def DeltaState.accumulateRange (s : DeltaState) (limitSequence : Nat) :
    Option JournalDeltaRange :=
  let fc := s.fileChangeDeltas.filter (fun d => decide (limitSequence ≤ d.sequenceID))
  let hu := s.hashUpdateDeltas.filter (fun d => decide (limitSequence ≤ d.sequenceID))
  let seqs := fc.map (·.sequenceID) ++ hu.map (·.sequenceID)
  if seqs = [] then none
  else
    some {
      fromSequence := listMin seqs
      toSequence := listMax seqs
      fromTime := listMin (fc.map (·.time) ++ hu.map (·.time))
      toTime := listMax (fc.map (·.time) ++ hu.map (·.time))
      fromHash := match hu.head? with
        | some d => d.fromHash
        | none => s.currentHash
      toHash := match hu.getLast? with
        | some d => d.toHash
        | none => s.currentHash
      changedFilesInOverlay := fc.foldl applyFileChange []
      uncleanPaths := hu.foldl (fun acc d => acc ++ d.uncleanPaths) []
      isTruncated := decide (0 < limitSequence) && decide (limitSequence < listMin s.allSeqs)
    }

/-- The whole Journal: the delta state plus the monotonic clock, a count
of subscriber notifications fired so far, and the log of values passed to
the `truncatedReads` stats counter's `addValue`. -/
structure JournalState where
  deltaState : DeltaState
  clock : Nat
  notifications : Nat
  truncatedReadsLog : List Nat
deriving DecidableEq, Repr

/-- The freshly constructed Journal: empty deques, `nextSequence = 1`,
`currentHash = kZeroHash`, default memory limit; the constructor in
`Journal.h` calls `truncatedReads.addValue(0)` once. -/
def initialJournal : JournalState :=
  { deltaState :=
    { nextSequence := 1
      fileChangeDeltas := []
      hashUpdateDeltas := []
      currentHash := kZeroHash
      stats := none
      memoryLimit := kDefaultJournalMemoryLimit
      deltaMemoryUsage := 0 }
    clock := 0
    notifications := 0
    truncatedReadsLog := [0] }

/-- Modelled from the spec: `Journal::addDelta` for a file-change delta:
stamp sequence number and time, advance `nextSequence`, attempt
compaction, otherwise append and update usage and stats, evict, then
notify subscribers. -/
def JournalState.addFileChange (s : JournalState) (d0 : FileChangeJournalDelta) :
    JournalState :=
  let ds := s.deltaState
  let d := { d0 with sequenceID := ds.nextSequence, time := s.clock }
  let ds1 := { ds with nextSequence := ds.nextSequence + 1 }
  let ds2 :=
    if tryCompactFileChange ds1.fileChangeDeltas d then ds1
    else
      { ds1 with fileChangeDeltas := ds1.fileChangeDeltas ++ [d],
                 deltaMemoryUsage := ds1.deltaMemoryUsage + d.estimateMemoryUsage,
                 stats := bumpStats ds1.stats d.time }
  { s with deltaState := truncateIfNecessary ds2,
           clock := s.clock + 1,
           notifications := s.notifications + 1 }

/-- Modelled from the spec: `Journal::addDelta` for a hash-update delta:
stamp, advance `nextSequence`, set `currentHash` to the new hash, attempt
compaction, otherwise append and update usage and stats, evict, then
notify subscribers. -/
def JournalState.addHashUpdate (s : JournalState) (d0 : HashUpdateJournalDelta)
    (newHash : Hash) : JournalState :=
  let ds := s.deltaState
  let d := { d0 with sequenceID := ds.nextSequence, time := s.clock }
  let ds1 := { ds with nextSequence := ds.nextSequence + 1, currentHash := newHash }
  let ds2 :=
    match tryCompactHashUpdate ds1.hashUpdateDeltas d with
    | some merged => { ds1 with hashUpdateDeltas := merged }
    | none =>
      { ds1 with hashUpdateDeltas := ds1.hashUpdateDeltas ++ [d],
                 deltaMemoryUsage := ds1.deltaMemoryUsage + d.estimateMemoryUsage,
                 stats := bumpStats ds1.stats d.time }
  { s with deltaState := truncateIfNecessary ds2,
           clock := s.clock + 1,
           notifications := s.notifications + 1 }

/-- Modelled from the spec: `Journal::flush`: clear both deques and the
stats, keep `currentHash` and `nextSequence`, then notify subscribers. -/
def JournalState.flushJournal (s : JournalState) : JournalState :=
  { s with
    notifications := s.notifications + 1
    deltaState :=
      { s.deltaState with fileChangeDeltas := [], hashUpdateDeltas := [],
                          stats := none, deltaMemoryUsage := 0 } }

/-- Modelled from the spec: `Journal::setMemoryLimit`: adjust the cap;
shrinking triggers immediate eviction to fit. -/
def JournalState.setMemoryLimit (s : JournalState) (n : Nat) : JournalState :=
  { s with deltaState := truncateIfNecessary { s.deltaState with memoryLimit := n } }

/-- Modelled from the spec: the state effect of `Journal::accumulateRange`:
a summary with `isTruncated` set adds `1` to the `truncatedReads` counter,
and `maxFilesAccumulated` tracks the largest number of distinct paths
covered by a range sum. -/
def JournalState.accumulateRangeOp (s : JournalState) (limitSequence : Nat) :
    JournalState :=
  match s.deltaState.accumulateRange limitSequence with
  | none => s
  | some r =>
    { s with
      truncatedReadsLog :=
        if r.isTruncated then s.truncatedReadsLog ++ [1] else s.truncatedReadsLog
      deltaState :=
        { s.deltaState with stats := s.deltaState.stats.map (fun j =>
            { j with maxFilesAccumulated := max j.maxFilesAccumulated r.changedFilesInOverlay.length }) } }

/-- One externally observable Journal operation. -/
inductive Op where
  | created (p : RelativePath)
  | removed (p : RelativePath)
  | changed (p : RelativePath)
  | renamed (oldName newName : RelativePath)
  | replaced (oldName newName : RelativePath)
  | hashUpdate1 (toHash : Hash)
  | hashUpdate2 (fromHash toHash : Hash)
  | recordUnclean (fromHash toHash : Hash) (paths : List RelativePath)
  | flush
  | setMemoryLimit (n : Nat)
  | accumulate (limitSequence : Nat)
deriving DecidableEq, Repr

/-- Is this operation one of the `record*` entry points? -/
def Op.isRecord : Op → Bool
  | .flush => false
  | .setMemoryLimit _ => false
  | .accumulate _ => false
  | _ => true

/-- Is this operation one of the hash-update `record*` entry points? -/
def Op.isHashRecord : Op → Bool
  | .hashUpdate1 _ => true
  | .hashUpdate2 _ _ => true
  | .recordUnclean _ _ _ => true
  | _ => false

/-- Apply one Journal operation, dispatching to the `record*` / `flush` /
`setMemoryLimit` / `accumulateRange` entry points modelled above.  The
single-argument `recordHashUpdate(toHash)` uses `currentHash` as the
implicit `fromHash`. -/
def applyOp (s : JournalState) (op : Op) : JournalState :=
  match op with
  | .created p =>
    s.addFileChange { sequenceID := 0, time := 0, path1 := p, path2 := none, kind := .created }
  | .removed p =>
    s.addFileChange { sequenceID := 0, time := 0, path1 := p, path2 := none, kind := .removed }
  | .changed p =>
    s.addFileChange { sequenceID := 0, time := 0, path1 := p, path2 := none, kind := .changed }
  | .renamed o n =>
    s.addFileChange { sequenceID := 0, time := 0, path1 := o, path2 := some n, kind := .renamed }
  | .replaced o n =>
    s.addFileChange { sequenceID := 0, time := 0, path1 := o, path2 := some n, kind := .replaced }
  | .hashUpdate1 t =>
    s.addHashUpdate { sequenceID := 0, time := 0, fromHash := s.deltaState.currentHash,
                      toHash := t, uncleanPaths := [] } t
  | .hashUpdate2 f t =>
    s.addHashUpdate { sequenceID := 0, time := 0, fromHash := f, toHash := t,
                      uncleanPaths := [] } t
  | .recordUnclean f t ps =>
    s.addHashUpdate { sequenceID := 0, time := 0, fromHash := f, toHash := t,
                      uncleanPaths := ps } t
  | .flush => s.flushJournal
  | .setMemoryLimit n => s.setMemoryLimit n
  | .accumulate l => s.accumulateRangeOp l

/-- Run a list of operations from an arbitrary starting state. -/
def runFrom (s : JournalState) (ops : List Op) : JournalState :=
  ops.foldl applyOp s

/-- Run a list of operations on a freshly constructed Journal. -/
def runOps (ops : List Op) : JournalState :=
  runFrom initialJournal ops

/-- Number of `record*` calls in an operation list. -/
def countRecords (ops : List Op) : Nat :=
  (ops.filter Op.isRecord).length

/-- The sequence number stamped by the operation at index `i` of `ops`
(when that operation is a `record*` call): `addFileChange` and
`addHashUpdate` stamp the incoming delta with the `nextSequence` of the
state reached by the preceding operations. -/
def assignedSeq (ops : List Op) (i : Nat) : Nat :=
  (runOps (ops.take i)).deltaState.nextSequence

/-- The `toHash` of the most recent hash-update operation in `ops`,
defaulting to `h` when there is none. -/
def lastToHashFrom (h : Hash) : List Op → Hash
  | [] => h
  | op :: rest =>
    match op with
    | .hashUpdate1 t => lastToHashFrom t rest
    | .hashUpdate2 _ t => lastToHashFrom t rest
    | .recordUnclean _ t _ => lastToHashFrom t rest
    | _ => lastToHashFrom h rest

/-! ## List minimum / maximum helper lemmas -/

lemma foldl_min_le_init (l : List Nat) (a : Nat) : l.foldl min a ≤ a := by
  induction l generalizing a with
  | nil => exact Nat.le_refl a
  | cons b t ih =>
    calc (b :: t).foldl min a = t.foldl min (min a b) := rfl
    _ ≤ min a b := ih (min a b)
    _ ≤ a := Nat.min_le_left a b

lemma foldl_min_mem (l : List Nat) (a : Nat) : l.foldl min a = a ∨ l.foldl min a ∈ l := by
  induction l generalizing a with
  | nil => exact Or.inl rfl
  | cons b t ih =>
    rcases ih (min a b) with h | h
    · rcases min_choice a b with hm | hm
      · exact Or.inl (by rw [List.foldl_cons, h, hm])
      · refine Or.inr ?_
        rw [List.foldl_cons, h, hm]
        exact List.mem_cons_self b t
    · refine Or.inr (List.mem_cons.mpr (Or.inr ?_))
      rw [List.foldl_cons]
      exact h

lemma foldl_min_le_of_mem {l : List Nat} {x : Nat} (h : x ∈ l) (a : Nat) :
    l.foldl min a ≤ x := by
  induction l generalizing a with
  | nil => cases h
  | cons b t ih =>
    rcases List.mem_cons.mp h with rfl | hx
    · calc (x :: t).foldl min a = t.foldl min (min a x) := rfl
      _ ≤ min a x := foldl_min_le_init t (min a x)
      _ ≤ x := Nat.min_le_right a x
    · exact ih hx (min a b)

lemma listMin_mem {l : List Nat} (h : l ≠ []) : listMin l ∈ l := by
  cases l with
  | nil => exact absurd rfl h
  | cons a t =>
    rcases foldl_min_mem t a with hm | hm
    · simp [listMin, hm]
    · simp [listMin, List.mem_cons]
      right
      exact hm

lemma listMin_le {l : List Nat} {x : Nat} (h : x ∈ l) : listMin l ≤ x := by
  cases l with
  | nil => cases h
  | cons a t =>
    rcases List.mem_cons.mp h with rfl | hx
    · exact foldl_min_le_init t x
    · exact foldl_min_le_of_mem hx a

lemma listMin_eq_of {l : List Nat} {x : Nat} (hx : x ∈ l) (h : ∀ q ∈ l, x ≤ q) :
    listMin l = x :=
  Nat.le_antisymm (listMin_le hx) (h (listMin l) (listMin_mem (List.ne_nil_of_mem hx)))

lemma le_foldl_max_init (l : List Nat) (a : Nat) : a ≤ l.foldl max a := by
  induction l generalizing a with
  | nil => exact Nat.le_refl a
  | cons b t ih =>
    calc a ≤ max a b := Nat.le_max_left a b
    _ ≤ t.foldl max (max a b) := ih (max a b)
    _ = (b :: t).foldl max a := rfl

lemma foldl_max_mem (l : List Nat) (a : Nat) : l.foldl max a = a ∨ l.foldl max a ∈ l := by
  induction l generalizing a with
  | nil => exact Or.inl rfl
  | cons b t ih =>
    rcases ih (max a b) with h | h
    · rcases max_choice a b with hm | hm
      · exact Or.inl (by rw [List.foldl_cons, h, hm])
      · refine Or.inr ?_
        rw [List.foldl_cons, h, hm]
        exact List.mem_cons_self b t
    · refine Or.inr (List.mem_cons.mpr (Or.inr ?_))
      rw [List.foldl_cons]
      exact h

lemma le_foldl_max_of_mem {l : List Nat} {x : Nat} (h : x ∈ l) (a : Nat) :
    x ≤ l.foldl max a := by
  induction l generalizing a with
  | nil => cases h
  | cons b t ih =>
    rcases List.mem_cons.mp h with rfl | hx
    · calc x ≤ max a x := Nat.le_max_right a x
      _ ≤ t.foldl max (max a x) := le_foldl_max_init t (max a x)
      _ = (x :: t).foldl max a := rfl
    · exact ih hx (max a b)

lemma listMax_mem {l : List Nat} (h : l ≠ []) : listMax l ∈ l := by
  cases l with
  | nil => exact absurd rfl h
  | cons a t =>
    rcases foldl_max_mem t a with hm | hm
    · simp [listMax, hm]
    · simp [listMax, List.mem_cons]
      right
      exact hm

lemma le_listMax {l : List Nat} {x : Nat} (h : x ∈ l) : x ≤ listMax l := by
  cases l with
  | nil => cases h
  | cons a t =>
    rcases List.mem_cons.mp h with rfl | hx
    · exact le_foldl_max_init t x
    · exact le_foldl_max_of_mem hx a

lemma listMax_eq_of {l : List Nat} {x : Nat} (hx : x ∈ l) (h : ∀ q ∈ l, q ≤ x) :
    listMax l = x :=
  Nat.le_antisymm (h (listMax l) (listMax_mem (List.ne_nil_of_mem hx))) (le_listMax hx)

/-- Filtering with a lower bound keeps the maximum, as long as something
survives the filter. -/
lemma listMax_filter_ge (l : List Nat) (L : Nat)
    (h : l.filter (fun q => decide (L ≤ q)) ≠ []) :
    listMax (l.filter (fun q => decide (L ≤ q))) = listMax l := by
  have hmem : listMax (l.filter (fun q => decide (L ≤ q))) ∈ l.filter (fun q => decide (L ≤ q)) :=
    listMax_mem h
  have hsub : listMax (l.filter (fun q => decide (L ≤ q))) ∈ l :=
    (List.mem_filter.mp hmem).1
  have hLmax : L ≤ listMax l := by
    have := (List.mem_filter.mp hmem).2
    have hL : L ≤ listMax (l.filter (fun q => decide (L ≤ q))) := by simpa using this
    exact Nat.le_trans hL (le_listMax hsub)
  have hlne : l ≠ [] := by
    intro hnil
    rw [hnil] at h
    exact h rfl
  have hmaxfil : listMax l ∈ l.filter (fun q => decide (L ≤ q)) := by
    refine List.mem_filter.mpr ⟨listMax_mem hlne, by simpa using hLmax⟩
  exact Nat.le_antisymm (le_listMax hsub) (le_listMax hmaxfil)

/-- Map and filter commute when the predicate factors through the mapped
function. -/
lemma map_filter_comm {α : Type} (f : α → Nat) (p : Nat → Bool) (l : List α) :
    (l.filter (fun x => p (f x))).map f = (l.map f).filter p := by
  induction l with
  | nil => rfl
  | cons a t ih =>
    by_cases hp : p (f a) = true
    · simp [List.filter_cons, hp, ih]
    · simp only [Bool.not_eq_true] at hp
      simp [List.filter_cons, hp, ih]

/-! ## Characterization of the front-selection helpers -/

lemma empty_iff (s : DeltaState) :
    s.empty = true ↔ s.fileChangeDeltas = [] ∧ s.hashUpdateDeltas = [] := by
  simp [DeltaState.empty, List.isEmpty_iff]

lemma numDeltas_pos_iff (s : DeltaState) : 0 < s.numDeltas ↔ s.empty = false := by
  rw [DeltaState.numDeltas]
  cases hf : s.fileChangeDeltas <;> cases hh : s.hashUpdateDeltas <;>
    simp [DeltaState.empty, hf, hh]

lemma fc_ne_of_front_true {s : DeltaState} (h : s.isFileChangeInFront = true) :
    s.fileChangeDeltas ≠ [] := by
  intro hnil
  simp [DeltaState.isFileChangeInFront, hnil] at h

lemma hu_ne_of_front_false {s : DeltaState} (hne : 0 < s.numDeltas)
    (h : s.isFileChangeInFront = false) : s.hashUpdateDeltas ≠ [] := by
  intro hnil
  cases hf : s.fileChangeDeltas with
  | nil =>
    rw [DeltaState.numDeltas, hf, hnil] at hne
    simp at hne
  | cons f fr =>
    simp [DeltaState.isFileChangeInFront, hf, hnil] at h

lemma isFileChangeInFront_cons_cons {s : DeltaState} {f : FileChangeJournalDelta}
    {fr : List FileChangeJournalDelta} {g : HashUpdateJournalDelta}
    {gr : List HashUpdateJournalDelta}
    (hf : s.fileChangeDeltas = f :: fr) (hh : s.hashUpdateDeltas = g :: gr) :
    s.isFileChangeInFront = decide (f.sequenceID < g.sequenceID) := by
  simp [DeltaState.isFileChangeInFront, hf, hh]

lemma isFileChangeInFront_fc_nil {s : DeltaState} (h : s.fileChangeDeltas = []) :
    s.isFileChangeInFront = false := by
  simp [DeltaState.isFileChangeInFront, h]

lemma isFileChangeInFront_hu_nil {s : DeltaState} (hf : s.fileChangeDeltas ≠ [])
    (h : s.hashUpdateDeltas = []) : s.isFileChangeInFront = true := by
  cases hfc : s.fileChangeDeltas with
  | nil => exact absurd hfc hf
  | cons f fr => simp [DeltaState.isFileChangeInFront, hfc, h]

/-! ## Dissection of `popFront` -/

/-- `popFront` on a non-empty state drops the head of the deque chosen by
`isFileChangeInFront` and adjusts usage and stats. -/
lemma popFront_spec (s : DeltaState) (h : 0 < s.numDeltas) :
    (∃ d rest, s.isFileChangeInFront = true ∧ s.fileChangeDeltas = d :: rest ∧
      s.popFront = { s with fileChangeDeltas := rest,
                            deltaMemoryUsage := s.deltaMemoryUsage - d.estimateMemoryUsage,
                            stats := dropStats s.stats })
    ∨ (∃ d rest, s.isFileChangeInFront = false ∧ s.hashUpdateDeltas = d :: rest ∧
      s.popFront = { s with hashUpdateDeltas := rest,
                            deltaMemoryUsage := s.deltaMemoryUsage - d.estimateMemoryUsage,
                            stats := dropStats s.stats }) := by
  cases hb : s.isFileChangeInFront with
  | true =>
    left
    cases hfc : s.fileChangeDeltas with
    | nil => exact absurd hfc (fc_ne_of_front_true hb)
    | cons d rest =>
      refine ⟨d, rest, rfl, rfl, ?_⟩
      rw [DeltaState.popFront, hb, hfc]
      simp
  | false =>
    right
    cases hhu : s.hashUpdateDeltas with
    | nil => exact absurd hhu (hu_ne_of_front_false h hb)
    | cons d rest =>
      refine ⟨d, rest, rfl, rfl, ?_⟩
      rw [DeltaState.popFront, hb, hhu]
      simp

lemma popFront_of_empty {s : DeltaState} (h : s.numDeltas = 0) : s.popFront = s := by
  have hfc : s.fileChangeDeltas = [] := by
    rw [DeltaState.numDeltas] at h
    exact List.length_eq_zero.mp (Nat.eq_zero_of_add_eq_zero_right h)
  have hhu : s.hashUpdateDeltas = [] := by
    rw [DeltaState.numDeltas] at h
    exact List.length_eq_zero.mp (Nat.eq_zero_of_add_eq_zero_left h)
  rw [DeltaState.popFront]
  split <;> simp [hfc, hhu]

lemma popFront_numDeltas {s : DeltaState} (h : 0 < s.numDeltas) :
    s.popFront.numDeltas + 1 = s.numDeltas := by
  rcases popFront_spec s h with ⟨d, rest, _, hfc, heq⟩ | ⟨d, rest, _, hhu, heq⟩
  · rw [heq]
    simp only [DeltaState.numDeltas, hfc]
    simp [Nat.add_right_comm]
  · rw [heq]
    simp only [DeltaState.numDeltas, hhu]
    simp [Nat.add_assoc, Nat.add_comm 1]

lemma popFront_nextSequence (s : DeltaState) : s.popFront.nextSequence = s.nextSequence := by
  rw [DeltaState.popFront]
  split <;> (rename_i hb) <;> [cases s.fileChangeDeltas; cases s.hashUpdateDeltas] <;> rfl

lemma popFront_memoryLimit (s : DeltaState) : s.popFront.memoryLimit = s.memoryLimit := by
  rw [DeltaState.popFront]
  split <;> (rename_i hb) <;> [cases s.fileChangeDeltas; cases s.hashUpdateDeltas] <;> rfl

lemma popFront_currentHash (s : DeltaState) : s.popFront.currentHash = s.currentHash := by
  rw [DeltaState.popFront]
  split <;> (rename_i hb) <;> [cases s.fileChangeDeltas; cases s.hashUpdateDeltas] <;> rfl

lemma popFront_allSeqs_sublist (s : DeltaState) : s.popFront.allSeqs.Sublist s.allSeqs := by
  by_cases h : 0 < s.numDeltas
  · rcases popFront_spec s h with ⟨d, rest, _, hfc, heq⟩ | ⟨d, rest, _, hhu, heq⟩
    · rw [heq]
      simp only [DeltaState.allSeqs, hfc]
      exact List.Sublist.append_right (List.sublist_cons_self _ _) _
    · rw [heq]
      simp only [DeltaState.allSeqs, hhu]
      exact List.Sublist.append_left (List.sublist_cons_self _ _) _
  · rw [popFront_of_empty (Nat.eq_zero_of_not_pos h)]

/-- The components of the spec's `DeltaState` invariants that every
operation preserves step by step: exact memory accounting, per-deque
sorted sequence numbers, global bounds on sequence numbers, and global
distinctness. -/
structure InvPre (s : DeltaState) : Prop where
  usage_eq : s.deltaMemoryUsage = s.totalEstimate
  sorted_fc : (s.fileChangeDeltas.map (·.sequenceID)).Pairwise (· < ·)
  sorted_hu : (s.hashUpdateDeltas.map (·.sequenceID)).Pairwise (· < ·)
  seqs_lt : ∀ q ∈ s.allSeqs, q < s.nextSequence
  seqs_pos : ∀ q ∈ s.allSeqs, 1 ≤ q
  nodup : s.allSeqs.Nodup
  next_pos : 1 ≤ s.nextSequence

lemma popFront_invPre {s : DeltaState} (hs : InvPre s) (h : 0 < s.numDeltas) :
    InvPre s.popFront := by
  have hnodup := hs.nodup.sublist (popFront_allSeqs_sublist s)
  rcases popFront_spec s h with ⟨d, rest, _, hfc, heq⟩ | ⟨d, rest, _, hhu, heq⟩
  · have hseqs : s.allSeqs = d.sequenceID :: (rest.map (·.sequenceID)
        ++ s.hashUpdateDeltas.map (·.sequenceID)) := by
      simp [DeltaState.allSeqs, hfc]
    have husage := hs.usage_eq
    rw [DeltaState.totalEstimate, hfc] at husage
    simp only [List.map_cons, List.sum_cons] at husage
    have hsfc := hs.sorted_fc
    rw [hfc] at hsfc
    simp only [List.map_cons] at hsfc
    rw [heq] at hnodup ⊢
    refine ⟨?_, ?_, ?_, ?_, ?_, hnodup, hs.next_pos⟩
    · simp only [DeltaState.totalEstimate]
      omega
    · exact (List.pairwise_cons.mp hsfc).2
    · exact hs.sorted_hu
    · intro q hq
      have hq2 : q ∈ s.allSeqs := by
        rw [hseqs]
        refine List.mem_cons_of_mem _ ?_
        simpa [DeltaState.allSeqs] using hq
      exact hs.seqs_lt q hq2
    · intro q hq
      have hq2 : q ∈ s.allSeqs := by
        rw [hseqs]
        refine List.mem_cons_of_mem _ ?_
        simpa [DeltaState.allSeqs] using hq
      exact hs.seqs_pos q hq2
  · have hseqs : ∀ q : Nat,
        q ∈ s.fileChangeDeltas.map (·.sequenceID) ++ rest.map (·.sequenceID) →
        q ∈ s.allSeqs := by
      intro q hq
      rcases List.mem_append.mp hq with hl | hr
      · exact List.mem_append.mpr (Or.inl hl)
      · refine List.mem_append.mpr (Or.inr ?_)
        rw [hhu]
        exact List.mem_cons_of_mem _ (by simpa using hr)
    have husage := hs.usage_eq
    rw [DeltaState.totalEstimate, hhu] at husage
    simp only [List.map_cons, List.sum_cons] at husage
    have hshu := hs.sorted_hu
    rw [hhu] at hshu
    simp only [List.map_cons] at hshu
    rw [heq] at hnodup ⊢
    refine ⟨?_, ?_, ?_, ?_, ?_, hnodup, hs.next_pos⟩
    · simp only [DeltaState.totalEstimate]
      omega
    · exact hs.sorted_fc
    · exact (List.pairwise_cons.mp hshu).2
    · intro q hq
      have hq2 : q ∈ s.allSeqs := hseqs q (by simpa [DeltaState.allSeqs] using hq)
      exact hs.seqs_lt q hq2
    · intro q hq
      have hq2 : q ∈ s.allSeqs := hseqs q (by simpa [DeltaState.allSeqs] using hq)
      exact hs.seqs_pos q hq2

lemma truncateLoop_invPre (n : Nat) : ∀ s : DeltaState, InvPre s → InvPre (truncateLoop n s) := by
  induction n with
  | zero => intro s hs; exact hs
  | succ n ih =>
    intro s hs
    rw [truncateLoop]
    split
    · rename_i hg
      exact ih s.popFront (popFront_invPre hs (Nat.lt_of_lt_of_le Nat.zero_lt_one (Nat.le_of_lt hg.2)))
    · exact hs

lemma truncateLoop_nextSequence (n : Nat) : ∀ s : DeltaState,
    (truncateLoop n s).nextSequence = s.nextSequence := by
  induction n with
  | zero => intro s; rfl
  | succ n ih =>
    intro s
    rw [truncateLoop]
    split
    · rw [ih s.popFront, popFront_nextSequence]
    · rfl

lemma truncateLoop_memoryLimit (n : Nat) : ∀ s : DeltaState,
    (truncateLoop n s).memoryLimit = s.memoryLimit := by
  induction n with
  | zero => intro s; rfl
  | succ n ih =>
    intro s
    rw [truncateLoop]
    split
    · rw [ih s.popFront, popFront_memoryLimit]
    · rfl

lemma truncateLoop_currentHash (n : Nat) : ∀ s : DeltaState,
    (truncateLoop n s).currentHash = s.currentHash := by
  induction n with
  | zero => intro s; rfl
  | succ n ih =>
    intro s
    rw [truncateLoop]
    split
    · rw [ih s.popFront, popFront_currentHash]
    · rfl

lemma truncateLoop_allSeqs_sublist (n : Nat) : ∀ s : DeltaState,
    (truncateLoop n s).allSeqs.Sublist s.allSeqs := by
  induction n with
  | zero => intro s; exact List.Sublist.refl _
  | succ n ih =>
    intro s
    rw [truncateLoop]
    split
    · exact (ih s.popFront).trans (popFront_allSeqs_sublist s)
    · exact List.Sublist.refl _

lemma truncateLoop_post (n : Nat) : ∀ s : DeltaState, s.numDeltas ≤ n →
    ¬((truncateLoop n s).memoryLimit < (truncateLoop n s).deltaMemoryUsage
      ∧ 1 < (truncateLoop n s).numDeltas) := by
  induction n with
  | zero =>
    intro s hn
    rw [truncateLoop]
    intro hcon
    omega
  | succ n ih =>
    intro s hn
    rw [truncateLoop]
    split
    · rename_i hg
      have hpos : 0 < s.numDeltas := Nat.lt_of_lt_of_le Nat.zero_lt_one (Nat.le_of_lt hg.2)
      have hpop := popFront_numDeltas hpos
      exact ih s.popFront (by omega)
    · rename_i hg
      exact hg

lemma totalEstimate_zero_of_numDeltas_zero {s : DeltaState} (h : s.numDeltas = 0) :
    s.totalEstimate = 0 := by
  have hfc : s.fileChangeDeltas = [] := by
    rw [DeltaState.numDeltas] at h
    exact List.length_eq_zero.mp (Nat.eq_zero_of_add_eq_zero_right h)
  have hhu : s.hashUpdateDeltas = [] := by
    rw [DeltaState.numDeltas] at h
    exact List.length_eq_zero.mp (Nat.eq_zero_of_add_eq_zero_left h)
  rw [DeltaState.totalEstimate, hfc, hhu]
  rfl

lemma truncate_invPre {s : DeltaState} (hs : InvPre s) : InvPre (truncateIfNecessary s) :=
  truncateLoop_invPre s.numDeltas s hs

lemma truncate_nextSequence (s : DeltaState) :
    (truncateIfNecessary s).nextSequence = s.nextSequence :=
  truncateLoop_nextSequence s.numDeltas s

lemma truncate_memoryLimit (s : DeltaState) :
    (truncateIfNecessary s).memoryLimit = s.memoryLimit :=
  truncateLoop_memoryLimit s.numDeltas s

lemma truncate_currentHash (s : DeltaState) :
    (truncateIfNecessary s).currentHash = s.currentHash :=
  truncateLoop_currentHash s.numDeltas s

lemma truncate_allSeqs_sublist (s : DeltaState) :
    (truncateIfNecessary s).allSeqs.Sublist s.allSeqs :=
  truncateLoop_allSeqs_sublist s.numDeltas s

/-- After eviction, either the memory usage fits the limit or exactly one
delta remains. -/
lemma truncate_memOk {s : DeltaState} (hs : InvPre s) :
    (truncateIfNecessary s).deltaMemoryUsage ≤ (truncateIfNecessary s).memoryLimit
    ∨ (truncateIfNecessary s).numDeltas = 1 := by
  have hpost := truncateLoop_post s.numDeltas s (Nat.le_refl _)
  have hinv := truncate_invPre hs
  rw [truncateIfNecessary]
  by_cases h1 : (truncateLoop s.numDeltas s).numDeltas ≤ 1
  · rcases Nat.lt_or_ge (truncateLoop s.numDeltas s).numDeltas 1 with h0 | h0
    · left
      have hz : (truncateLoop s.numDeltas s).numDeltas = 0 := by omega
      have := hinv.usage_eq
      rw [truncateIfNecessary] at this
      rw [this, totalEstimate_zero_of_numDeltas_zero hz]
      exact Nat.zero_le _
    · right
      omega
  · left
    omega

/-! ## Invariant preservation through append and compaction -/

lemma invPre_bumpNext {s : DeltaState} (hs : InvPre s) :
    InvPre { s with nextSequence := s.nextSequence + 1 } := by
  refine ⟨hs.usage_eq, hs.sorted_fc, hs.sorted_hu, ?_, hs.seqs_pos, hs.nodup, ?_⟩
  · intro q hq
    exact Nat.lt_succ_of_lt (hs.seqs_lt q hq)
  · exact Nat.le_succ_of_le hs.next_pos

lemma invPre_appendFC {s : DeltaState} (hs : InvPre s) (d : FileChangeJournalDelta)
    (hd : d.sequenceID = s.nextSequence) (st' : Option JournalStats) :
    InvPre { s with
      nextSequence := s.nextSequence + 1
      fileChangeDeltas := s.fileChangeDeltas ++ [d]
      deltaMemoryUsage := s.deltaMemoryUsage + d.estimateMemoryUsage
      stats := st' } := by
  have hall : ({ s with
      nextSequence := s.nextSequence + 1
      fileChangeDeltas := s.fileChangeDeltas ++ [d]
      deltaMemoryUsage := s.deltaMemoryUsage + d.estimateMemoryUsage
      stats := st' } : DeltaState).allSeqs
      = s.fileChangeDeltas.map (·.sequenceID)
        ++ (d.sequenceID :: s.hashUpdateDeltas.map (·.sequenceID)) := by
    simp [DeltaState.allSeqs]
  refine ⟨?_, ?_, hs.sorted_hu, ?_, ?_, ?_, Nat.le_succ_of_le hs.next_pos⟩
  · show s.deltaMemoryUsage + d.estimateMemoryUsage
      = ((s.fileChangeDeltas ++ [d]).map (·.estimateMemoryUsage)).sum
        + (s.hashUpdateDeltas.map (·.estimateMemoryUsage)).sum
    have := hs.usage_eq
    rw [DeltaState.totalEstimate] at this
    simp only [List.map_append, List.sum_append, List.map_cons, List.sum_cons,
      List.map_nil, List.sum_nil]
    omega
  · show ((s.fileChangeDeltas ++ [d]).map (·.sequenceID)).Pairwise (· < ·)
    rw [List.map_append]
    refine List.pairwise_append.mpr ⟨hs.sorted_fc, List.pairwise_singleton _ _, ?_⟩
    intro a ha b hb
    have hb2 : b = d.sequenceID := by simpa using hb
    have ha2 : a ∈ s.allSeqs := List.mem_append.mpr (Or.inl ha)
    rw [hb2, hd]
    exact hs.seqs_lt a ha2
  · intro q hq
    rw [hall] at hq
    rcases List.mem_append.mp hq with hl | hr
    · exact Nat.lt_succ_of_lt (hs.seqs_lt q (List.mem_append.mpr (Or.inl hl)))
    · rcases List.mem_cons.mp hr with rfl | hr2
      · rw [hd]; exact Nat.lt_succ_self _
      · exact Nat.lt_succ_of_lt (hs.seqs_lt q (List.mem_append.mpr (Or.inr hr2)))
  · intro q hq
    rw [hall] at hq
    rcases List.mem_append.mp hq with hl | hr
    · exact hs.seqs_pos q (List.mem_append.mpr (Or.inl hl))
    · rcases List.mem_cons.mp hr with rfl | hr2
      · rw [hd]; exact hs.next_pos
      · exact hs.seqs_pos q (List.mem_append.mpr (Or.inr hr2))
  · rw [hall, List.nodup_middle]
    refine List.nodup_cons.mpr ⟨?_, hs.nodup⟩
    intro hmem
    have := hs.seqs_lt _ hmem
    rw [hd] at this
    exact Nat.lt_irrefl _ this

lemma invPre_appendHU {s : DeltaState} (hs : InvPre s) (d : HashUpdateJournalDelta)
    (hd : d.sequenceID = s.nextSequence) (h' : Hash) (st' : Option JournalStats) :
    InvPre { s with
      nextSequence := s.nextSequence + 1
      currentHash := h'
      hashUpdateDeltas := s.hashUpdateDeltas ++ [d]
      deltaMemoryUsage := s.deltaMemoryUsage + d.estimateMemoryUsage
      stats := st' } := by
  have hall : ({ s with
      nextSequence := s.nextSequence + 1
      currentHash := h'
      hashUpdateDeltas := s.hashUpdateDeltas ++ [d]
      deltaMemoryUsage := s.deltaMemoryUsage + d.estimateMemoryUsage
      stats := st' } : DeltaState).allSeqs
      = (s.fileChangeDeltas.map (·.sequenceID)
        ++ s.hashUpdateDeltas.map (·.sequenceID)) ++ [d.sequenceID] := by
    simp [DeltaState.allSeqs]
  refine ⟨?_, hs.sorted_fc, ?_, ?_, ?_, ?_, Nat.le_succ_of_le hs.next_pos⟩
  · show s.deltaMemoryUsage + d.estimateMemoryUsage
      = (s.fileChangeDeltas.map (·.estimateMemoryUsage)).sum
        + ((s.hashUpdateDeltas ++ [d]).map (·.estimateMemoryUsage)).sum
    have := hs.usage_eq
    rw [DeltaState.totalEstimate] at this
    simp only [List.map_append, List.sum_append, List.map_cons, List.sum_cons,
      List.map_nil, List.sum_nil]
    omega
  · show ((s.hashUpdateDeltas ++ [d]).map (·.sequenceID)).Pairwise (· < ·)
    rw [List.map_append]
    refine List.pairwise_append.mpr ⟨hs.sorted_hu, List.pairwise_singleton _ _, ?_⟩
    intro a ha b hb
    have hb2 : b = d.sequenceID := by simpa using hb
    have ha2 : a ∈ s.allSeqs := List.mem_append.mpr (Or.inr ha)
    rw [hb2, hd]
    exact hs.seqs_lt a ha2
  · intro q hq
    rw [hall] at hq
    rcases List.mem_append.mp hq with hl | hr
    · exact Nat.lt_succ_of_lt (hs.seqs_lt q hl)
    · have : q = d.sequenceID := by simpa using hr
      rw [this, hd]
      exact Nat.lt_succ_self _
  · intro q hq
    rw [hall] at hq
    rcases List.mem_append.mp hq with hl | hr
    · exact hs.seqs_pos q hl
    · have : q = d.sequenceID := by simpa using hr
      rw [this, hd]
      exact hs.next_pos
  · rw [hall]
    rw [(List.perm_append_singleton _ _).nodup_iff]
    refine List.nodup_cons.mpr ⟨?_, hs.nodup⟩
    intro hmem
    have := hs.seqs_lt _ hmem
    rw [hd] at this
    exact Nat.lt_irrefl _ this

/-- Replacing the `toHash` of the last element of a hash-update deque does
not change any function of the deque that ignores `toHash`. -/
lemma lastUpdate_map {γ : Type} (f : HashUpdateJournalDelta → γ)
    (hf : ∀ d t, f { d with toHash := t } = f d) :
    ∀ (l : List HashUpdateJournalDelta) (tail : HashUpdateJournalDelta),
      l.getLast? = some tail → ∀ t,
      (l.dropLast ++ [{ tail with toHash := t }]).map f = l.map f := by
  intro l
  induction l with
  | nil => intro tail ht; cases ht
  | cons a rest ih =>
    intro tail ht t
    cases rest with
    | nil =>
      have : tail = a := by
        simpa [List.getLast?] using ht.symm
      subst this
      simp [hf]
    | cons b r =>
      have ht2 : (b :: r).getLast? = some tail := by
        rw [List.getLast?_cons_cons] at ht
        exact ht
      have hdrop : (a :: b :: r).dropLast = a :: (b :: r).dropLast := rfl
      rw [hdrop]
      simp only [List.cons_append, List.map_cons]
      rw [ih tail ht2 t]
      rfl

lemma invPre_compactHU {s : DeltaState} (hs : InvPre s) {tail : HashUpdateJournalDelta}
    (ht : s.hashUpdateDeltas.getLast? = some tail) (t : Hash) (h' : Hash) :
    InvPre { s with
      nextSequence := s.nextSequence + 1
      currentHash := h'
      hashUpdateDeltas := s.hashUpdateDeltas.dropLast ++ [{ tail with toHash := t }] } := by
  have hseq : (s.hashUpdateDeltas.dropLast ++ [{ tail with toHash := t }]).map
        (fun d : HashUpdateJournalDelta => d.sequenceID)
      = s.hashUpdateDeltas.map (fun d : HashUpdateJournalDelta => d.sequenceID) :=
    lastUpdate_map (fun d : HashUpdateJournalDelta => d.sequenceID) (fun _ _ => rfl) _ tail ht t
  have hest : (s.hashUpdateDeltas.dropLast ++ [{ tail with toHash := t }]).map
        (fun d : HashUpdateJournalDelta => d.estimateMemoryUsage)
      = s.hashUpdateDeltas.map (fun d : HashUpdateJournalDelta => d.estimateMemoryUsage) :=
    lastUpdate_map (fun d : HashUpdateJournalDelta => d.estimateMemoryUsage) (fun _ _ => rfl) _ tail ht t
  have hall : ({ s with
      nextSequence := s.nextSequence + 1
      currentHash := h'
      hashUpdateDeltas := s.hashUpdateDeltas.dropLast ++ [{ tail with toHash := t }] } : DeltaState).allSeqs
      = s.allSeqs := by
    simp only [DeltaState.allSeqs]
    rw [hseq]
  refine ⟨?_, hs.sorted_fc, ?_, ?_, ?_, ?_, Nat.le_succ_of_le hs.next_pos⟩
  · show s.deltaMemoryUsage
      = (s.fileChangeDeltas.map (·.estimateMemoryUsage)).sum
        + ((s.hashUpdateDeltas.dropLast ++ [{ tail with toHash := t }]).map
            (fun d : HashUpdateJournalDelta => d.estimateMemoryUsage)).sum
    rw [hest]
    exact hs.usage_eq
  · show ((s.hashUpdateDeltas.dropLast ++ [{ tail with toHash := t }]).map
        (fun d : HashUpdateJournalDelta => d.sequenceID)).Pairwise (· < ·)
    rw [hseq]
    exact hs.sorted_hu
  · intro q hq
    rw [hall] at hq
    exact Nat.lt_succ_of_lt (hs.seqs_lt q hq)
  · intro q hq
    rw [hall] at hq
    exact hs.seqs_pos q hq
  · rw [hall]
    exact hs.nodup

/-- The reachable-state invariant: the step-preserved components plus the
spec's memory-bound property ("usage within the limit, or exactly one
delta remains"). -/
def JournalInv (s : DeltaState) : Prop :=
  InvPre s ∧ (s.deltaMemoryUsage ≤ s.memoryLimit ∨ s.numDeltas = 1)

lemma tryCompactHU_eq_some {l : List HashUpdateJournalDelta} {d : HashUpdateJournalDelta}
    {m : List HashUpdateJournalDelta} (h : tryCompactHashUpdate l d = some m) :
    ∃ tail, l.getLast? = some tail ∧ tail.uncleanPaths = [] ∧ d.uncleanPaths = [] ∧
      m = l.dropLast ++ [{ tail with toHash := d.toHash }] := by
  rw [tryCompactHashUpdate] at h
  split at h
  · rename_i tail htail
    split at h
    · rename_i hcond
      exact ⟨tail, htail, hcond.1, hcond.2, (Option.some.inj h).symm⟩
    · cases h
  · cases h

lemma addFileChange_inv {s : JournalState} (hs : InvPre s.deltaState)
    (d0 : FileChangeJournalDelta) : JournalInv (s.addFileChange d0).deltaState := by
  by_cases hc : tryCompactFileChange s.deltaState.fileChangeDeltas
      { d0 with sequenceID := s.deltaState.nextSequence, time := s.clock } = true
  · have heq : (s.addFileChange d0).deltaState
        = truncateIfNecessary
            { s.deltaState with nextSequence := s.deltaState.nextSequence + 1 } := by
      simp [JournalState.addFileChange, hc]
    rw [heq]
    exact ⟨truncate_invPre (invPre_bumpNext hs), truncate_memOk (invPre_bumpNext hs)⟩
  · have heq : (s.addFileChange d0).deltaState
        = truncateIfNecessary { s.deltaState with
            nextSequence := s.deltaState.nextSequence + 1
            fileChangeDeltas := s.deltaState.fileChangeDeltas
              ++ [{ d0 with sequenceID := s.deltaState.nextSequence, time := s.clock }]
            deltaMemoryUsage := s.deltaState.deltaMemoryUsage
              + FileChangeJournalDelta.estimateMemoryUsage
                  { d0 with sequenceID := s.deltaState.nextSequence, time := s.clock }
            stats := bumpStats s.deltaState.stats s.clock } := by
      simp [JournalState.addFileChange, hc]
    rw [heq]
    have hpre := invPre_appendFC hs
      { d0 with sequenceID := s.deltaState.nextSequence, time := s.clock } rfl
      (bumpStats s.deltaState.stats s.clock)
    exact ⟨truncate_invPre hpre, truncate_memOk hpre⟩

lemma addHashUpdate_inv {s : JournalState} (hs : InvPre s.deltaState)
    (d0 : HashUpdateJournalDelta) (newHash : Hash) :
    JournalInv (s.addHashUpdate d0 newHash).deltaState := by
  cases hm : tryCompactHashUpdate s.deltaState.hashUpdateDeltas
      { d0 with sequenceID := s.deltaState.nextSequence, time := s.clock } with
  | some merged =>
    have heq : (s.addHashUpdate d0 newHash).deltaState
        = truncateIfNecessary { s.deltaState with
            nextSequence := s.deltaState.nextSequence + 1
            currentHash := newHash
            hashUpdateDeltas := merged } := by
      simp [JournalState.addHashUpdate, hm]
    rw [heq]
    rcases tryCompactHU_eq_some hm with ⟨tail, ht, _, _, hmerged⟩
    rw [hmerged]
    have hpre := invPre_compactHU hs ht d0.toHash newHash
    exact ⟨truncate_invPre hpre, truncate_memOk hpre⟩
  | none =>
    have heq : (s.addHashUpdate d0 newHash).deltaState
        = truncateIfNecessary { s.deltaState with
            nextSequence := s.deltaState.nextSequence + 1
            currentHash := newHash
            hashUpdateDeltas := s.deltaState.hashUpdateDeltas
              ++ [{ d0 with sequenceID := s.deltaState.nextSequence, time := s.clock }]
            deltaMemoryUsage := s.deltaState.deltaMemoryUsage
              + HashUpdateJournalDelta.estimateMemoryUsage
                  { d0 with sequenceID := s.deltaState.nextSequence, time := s.clock }
            stats := bumpStats s.deltaState.stats s.clock } := by
      simp [JournalState.addHashUpdate, hm]
    rw [heq]
    have hpre := invPre_appendHU hs
      { d0 with sequenceID := s.deltaState.nextSequence, time := s.clock } rfl
      newHash (bumpStats s.deltaState.stats s.clock)
    exact ⟨truncate_invPre hpre, truncate_memOk hpre⟩

lemma flush_inv {s : JournalState} (hs : InvPre s.deltaState) :
    JournalInv (s.flushJournal).deltaState := by
  refine ⟨⟨rfl, List.Pairwise.nil, List.Pairwise.nil, ?_, ?_, List.nodup_nil, hs.next_pos⟩,
    Or.inl (Nat.zero_le _)⟩
  · intro q hq
    cases hq
  · intro q hq
    cases hq

lemma setMemoryLimit_inv {s : JournalState} (hs : InvPre s.deltaState) (n : Nat) :
    JournalInv (s.setMemoryLimit n).deltaState := by
  have hpre : InvPre { s.deltaState with memoryLimit := n } :=
    ⟨hs.usage_eq, hs.sorted_fc, hs.sorted_hu, hs.seqs_lt, hs.seqs_pos, hs.nodup, hs.next_pos⟩
  exact ⟨truncate_invPre hpre, truncate_memOk hpre⟩

lemma accumulateRangeOp_deltaState (s : JournalState) (l : Nat) :
    (s.accumulateRangeOp l).deltaState
      = { s.deltaState with stats := (s.accumulateRangeOp l).deltaState.stats } := by
  cases hm : s.deltaState.accumulateRange l with
  | none => simp [JournalState.accumulateRangeOp, hm]
  | some r => simp [JournalState.accumulateRangeOp, hm]

lemma accumulateRangeOp_inv {s : JournalState} (hs : JournalInv s.deltaState) (l : Nat) :
    JournalInv (s.accumulateRangeOp l).deltaState := by
  rw [accumulateRangeOp_deltaState s l]
  exact ⟨⟨hs.1.usage_eq, hs.1.sorted_fc, hs.1.sorted_hu, hs.1.seqs_lt, hs.1.seqs_pos,
    hs.1.nodup, hs.1.next_pos⟩, hs.2⟩

lemma applyOp_inv {s : JournalState} (hs : JournalInv s.deltaState) (op : Op) :
    JournalInv (applyOp s op).deltaState := by
  cases op with
  | created p => exact addFileChange_inv hs.1 _
  | removed p => exact addFileChange_inv hs.1 _
  | changed p => exact addFileChange_inv hs.1 _
  | renamed o n => exact addFileChange_inv hs.1 _
  | replaced o n => exact addFileChange_inv hs.1 _
  | hashUpdate1 t => exact addHashUpdate_inv hs.1 _ _
  | hashUpdate2 f t => exact addHashUpdate_inv hs.1 _ _
  | recordUnclean f t ps => exact addHashUpdate_inv hs.1 _ _
  | flush => exact flush_inv hs.1
  | setMemoryLimit n => exact setMemoryLimit_inv hs.1 n
  | accumulate l => exact accumulateRangeOp_inv hs l

lemma initial_inv : JournalInv initialJournal.deltaState := by
  refine ⟨⟨rfl, List.Pairwise.nil, List.Pairwise.nil, ?_, ?_, List.nodup_nil, Nat.le_refl 1⟩,
    Or.inl (Nat.zero_le _)⟩
  · intro q hq
    cases hq
  · intro q hq
    cases hq

lemma runFrom_inv (ops : List Op) : ∀ t : JournalState, JournalInv t.deltaState →
    JournalInv (runFrom t ops).deltaState := by
  induction ops with
  | nil => intro t ht; exact ht
  | cons op rest ih =>
    intro t ht
    exact ih (applyOp t op) (applyOp_inv ht op)

lemma runOps_inv (ops : List Op) : JournalInv (runOps ops).deltaState :=
  runFrom_inv ops initialJournal initial_inv

/-! ## Dissection of the record operations -/

lemma addFileChange_deltaState (s : JournalState) (d0 : FileChangeJournalDelta) :
    ∃ ds2 : DeltaState, (s.addFileChange d0).deltaState = truncateIfNecessary ds2
      ∧ ds2.nextSequence = s.deltaState.nextSequence + 1
      ∧ ds2.currentHash = s.deltaState.currentHash
      ∧ ∀ q ∈ ds2.allSeqs, q ∈ s.deltaState.allSeqs ∨ q = s.deltaState.nextSequence := by
  by_cases hc : tryCompactFileChange s.deltaState.fileChangeDeltas
      { d0 with sequenceID := s.deltaState.nextSequence, time := s.clock } = true
  · refine ⟨{ s.deltaState with nextSequence := s.deltaState.nextSequence + 1 },
      by simp [JournalState.addFileChange, hc], rfl, rfl, ?_⟩
    intro q hq
    exact Or.inl hq
  · refine ⟨{ s.deltaState with
      nextSequence := s.deltaState.nextSequence + 1
      fileChangeDeltas := s.deltaState.fileChangeDeltas
        ++ [{ d0 with sequenceID := s.deltaState.nextSequence, time := s.clock }]
      deltaMemoryUsage := s.deltaState.deltaMemoryUsage
        + FileChangeJournalDelta.estimateMemoryUsage
            { d0 with sequenceID := s.deltaState.nextSequence, time := s.clock }
      stats := bumpStats s.deltaState.stats s.clock },
      by simp [JournalState.addFileChange, hc], rfl, rfl, ?_⟩
    intro q hq
    simp only [DeltaState.allSeqs, List.map_append, List.mem_append, List.map_cons,
      List.map_nil, List.mem_cons, List.not_mem_nil, or_false] at hq
    rcases hq with (hl | hd) | hr
    · exact Or.inl (List.mem_append.mpr (Or.inl hl))
    · exact Or.inr hd
    · exact Or.inl (List.mem_append.mpr (Or.inr hr))

lemma addHashUpdate_deltaState (s : JournalState) (d0 : HashUpdateJournalDelta)
    (newHash : Hash) :
    ∃ ds2 : DeltaState, (s.addHashUpdate d0 newHash).deltaState = truncateIfNecessary ds2
      ∧ ds2.nextSequence = s.deltaState.nextSequence + 1
      ∧ ds2.currentHash = newHash
      ∧ ∀ q ∈ ds2.allSeqs, q ∈ s.deltaState.allSeqs ∨ q = s.deltaState.nextSequence := by
  cases hm : tryCompactHashUpdate s.deltaState.hashUpdateDeltas
      { d0 with sequenceID := s.deltaState.nextSequence, time := s.clock } with
  | some merged =>
    refine ⟨{ s.deltaState with
      nextSequence := s.deltaState.nextSequence + 1
      currentHash := newHash
      hashUpdateDeltas := merged },
      by simp [JournalState.addHashUpdate, hm], rfl, rfl, ?_⟩
    rcases tryCompactHU_eq_some hm with ⟨tail, ht, _, _, hmerged⟩
    have hseq : merged.map (fun d : HashUpdateJournalDelta => d.sequenceID)
        = s.deltaState.hashUpdateDeltas.map (fun d : HashUpdateJournalDelta => d.sequenceID) := by
      rw [hmerged]
      exact lastUpdate_map (fun d : HashUpdateJournalDelta => d.sequenceID)
        (fun _ _ => rfl) _ tail ht _
    intro q hq
    left
    simp only [DeltaState.allSeqs] at hq ⊢
    rw [hseq] at hq
    exact hq
  | none =>
    refine ⟨{ s.deltaState with
      nextSequence := s.deltaState.nextSequence + 1
      currentHash := newHash
      hashUpdateDeltas := s.deltaState.hashUpdateDeltas
        ++ [{ d0 with sequenceID := s.deltaState.nextSequence, time := s.clock }]
      deltaMemoryUsage := s.deltaState.deltaMemoryUsage
        + HashUpdateJournalDelta.estimateMemoryUsage
            { d0 with sequenceID := s.deltaState.nextSequence, time := s.clock }
      stats := bumpStats s.deltaState.stats s.clock },
      by simp [JournalState.addHashUpdate, hm], rfl, rfl, ?_⟩
    intro q hq
    simp only [DeltaState.allSeqs, List.map_append, List.mem_append, List.map_cons,
      List.map_nil, List.mem_cons, List.not_mem_nil, or_false] at hq
    rcases hq with hl | (hr | hd)
    · exact Or.inl (List.mem_append.mpr (Or.inl hl))
    · exact Or.inl (List.mem_append.mpr (Or.inr hr))
    · exact Or.inr hd

/-! ## Field tracking through operations -/

lemma applyOp_nextSequence (s : JournalState) (op : Op) :
    (applyOp s op).deltaState.nextSequence
      = s.deltaState.nextSequence + (if op.isRecord then 1 else 0) := by
  cases op with
  | created p =>
    rcases addFileChange_deltaState s _ with ⟨ds2, heq, hn, _, _⟩
    rw [applyOp, heq, truncate_nextSequence, hn]
    rfl
  | removed p =>
    rcases addFileChange_deltaState s _ with ⟨ds2, heq, hn, _, _⟩
    rw [applyOp, heq, truncate_nextSequence, hn]
    rfl
  | changed p =>
    rcases addFileChange_deltaState s _ with ⟨ds2, heq, hn, _, _⟩
    rw [applyOp, heq, truncate_nextSequence, hn]
    rfl
  | renamed o n =>
    rcases addFileChange_deltaState s _ with ⟨ds2, heq, hn, _, _⟩
    rw [applyOp, heq, truncate_nextSequence, hn]
    rfl
  | replaced o n =>
    rcases addFileChange_deltaState s _ with ⟨ds2, heq, hn, _, _⟩
    rw [applyOp, heq, truncate_nextSequence, hn]
    rfl
  | hashUpdate1 t =>
    rcases addHashUpdate_deltaState s _ t with ⟨ds2, heq, hn, _, _⟩
    rw [applyOp, heq, truncate_nextSequence, hn]
    rfl
  | hashUpdate2 f t =>
    rcases addHashUpdate_deltaState s _ t with ⟨ds2, heq, hn, _, _⟩
    rw [applyOp, heq, truncate_nextSequence, hn]
    rfl
  | recordUnclean f t ps =>
    rcases addHashUpdate_deltaState s _ t with ⟨ds2, heq, hn, _, _⟩
    rw [applyOp, heq, truncate_nextSequence, hn]
    rfl
  | flush => rfl
  | setMemoryLimit n =>
    show (truncateIfNecessary _).nextSequence = _
    rw [truncate_nextSequence]
    rfl
  | accumulate l =>
    show (s.accumulateRangeOp l).deltaState.nextSequence = _
    rw [accumulateRangeOp_deltaState]
    rfl

lemma applyOp_currentHash_fc (s : JournalState) (op : Op) (h : op.isHashRecord = false) :
    (applyOp s op).deltaState.currentHash = s.deltaState.currentHash := by
  cases op with
  | created p =>
    rcases addFileChange_deltaState s _ with ⟨ds2, heq, _, hh, _⟩
    rw [applyOp, heq, truncate_currentHash, hh]
  | removed p =>
    rcases addFileChange_deltaState s _ with ⟨ds2, heq, _, hh, _⟩
    rw [applyOp, heq, truncate_currentHash, hh]
  | changed p =>
    rcases addFileChange_deltaState s _ with ⟨ds2, heq, _, hh, _⟩
    rw [applyOp, heq, truncate_currentHash, hh]
  | renamed o n =>
    rcases addFileChange_deltaState s _ with ⟨ds2, heq, _, hh, _⟩
    rw [applyOp, heq, truncate_currentHash, hh]
  | replaced o n =>
    rcases addFileChange_deltaState s _ with ⟨ds2, heq, _, hh, _⟩
    rw [applyOp, heq, truncate_currentHash, hh]
  | hashUpdate1 t => cases h
  | hashUpdate2 f t => cases h
  | recordUnclean f t ps => cases h
  | flush => rfl
  | setMemoryLimit n =>
    show (truncateIfNecessary _).currentHash = _
    rw [truncate_currentHash]
  | accumulate l =>
    show (s.accumulateRangeOp l).deltaState.currentHash = _
    rw [accumulateRangeOp_deltaState]

lemma addHashUpdate_currentHash (s : JournalState) (d0 : HashUpdateJournalDelta)
    (newHash : Hash) :
    (s.addHashUpdate d0 newHash).deltaState.currentHash = newHash := by
  rcases addHashUpdate_deltaState s d0 newHash with ⟨ds2, heq, _, hh, _⟩
  rw [heq, truncate_currentHash, hh]

/-- The current hash after a run equals the `toHash` of the most recent
hash-update operation of the run, or the starting hash when there is
none. -/
lemma runFrom_currentHash (ops : List Op) : ∀ s : JournalState,
    (runFrom s ops).deltaState.currentHash
      = lastToHashFrom s.deltaState.currentHash ops := by
  induction ops with
  | nil => intro s; rfl
  | cons op rest ih =>
    intro s
    have hstep : runFrom s (op :: rest) = runFrom (applyOp s op) rest := rfl
    rw [hstep]
    cases op with
    | hashUpdate1 t =>
      rw [ih (applyOp s (.hashUpdate1 t))]
      show lastToHashFrom ((s.addHashUpdate _ t).deltaState.currentHash) rest
        = lastToHashFrom t rest
      rw [addHashUpdate_currentHash]
    | hashUpdate2 f t =>
      rw [ih (applyOp s (.hashUpdate2 f t))]
      show lastToHashFrom ((s.addHashUpdate _ t).deltaState.currentHash) rest
        = lastToHashFrom t rest
      rw [addHashUpdate_currentHash]
    | recordUnclean f t ps =>
      rw [ih (applyOp s (.recordUnclean f t ps))]
      show lastToHashFrom ((s.addHashUpdate _ t).deltaState.currentHash) rest
        = lastToHashFrom t rest
      rw [addHashUpdate_currentHash]
    | created p =>
      rw [ih (applyOp s (.created p)), applyOp_currentHash_fc s (.created p) rfl]
      rfl
    | removed p =>
      rw [ih (applyOp s (.removed p)), applyOp_currentHash_fc s (.removed p) rfl]
      rfl
    | changed p =>
      rw [ih (applyOp s (.changed p)), applyOp_currentHash_fc s (.changed p) rfl]
      rfl
    | renamed o n =>
      rw [ih (applyOp s (.renamed o n)), applyOp_currentHash_fc s (.renamed o n) rfl]
      rfl
    | replaced o n =>
      rw [ih (applyOp s (.replaced o n)), applyOp_currentHash_fc s (.replaced o n) rfl]
      rfl
    | flush =>
      rw [ih (applyOp s .flush), applyOp_currentHash_fc s .flush rfl]
      rfl
    | setMemoryLimit n =>
      rw [ih (applyOp s (.setMemoryLimit n)), applyOp_currentHash_fc s (.setMemoryLimit n) rfl]
      rfl
    | accumulate l =>
      rw [ih (applyOp s (.accumulate l)), applyOp_currentHash_fc s (.accumulate l) rfl]
      rfl

lemma countRecords_cons (op : Op) (rest : List Op) :
    countRecords (op :: rest) = (if op.isRecord then 1 else 0) + countRecords rest := by
  rw [countRecords, countRecords, List.filter_cons]
  cases h : op.isRecord <;> simp [h, Nat.add_comm]

lemma runFrom_nextSequence (ops : List Op) : ∀ s : JournalState,
    (runFrom s ops).deltaState.nextSequence
      = s.deltaState.nextSequence + countRecords ops := by
  induction ops with
  | nil => intro s; rfl
  | cons op rest ih =>
    intro s
    have hstep : runFrom s (op :: rest) = runFrom (applyOp s op) rest := rfl
    rw [hstep, ih (applyOp s op), applyOp_nextSequence, countRecords_cons]
    cases h : op.isRecord <;> simp [h, Nat.add_assoc, Nat.add_comm, Nat.add_left_comm]

/-! ## Lower bounds on stored sequence numbers across a run -/

/-- Every stored sequence number, and the next one to be assigned, is at
least `n`. -/
def SeqsAtLeast (n : Nat) (s : DeltaState) : Prop :=
  (∀ q ∈ s.allSeqs, n ≤ q) ∧ n ≤ s.nextSequence

lemma seqsAtLeast_step {n : Nat} {base : DeltaState} {ds2 : DeltaState}
    (h1 : ∀ q ∈ base.allSeqs, n ≤ q) (h2 : n ≤ base.nextSequence)
    (hn : ds2.nextSequence = base.nextSequence + 1)
    (hall : ∀ q ∈ ds2.allSeqs, q ∈ base.allSeqs ∨ q = base.nextSequence) :
    SeqsAtLeast n (truncateIfNecessary ds2) := by
  constructor
  · intro q hq
    have hq2 : q ∈ ds2.allSeqs := (truncate_allSeqs_sublist ds2).subset hq
    rcases hall q hq2 with hold | hnew
    · exact h1 q hold
    · rw [hnew]
      exact h2
  · rw [truncate_nextSequence, hn]
    exact Nat.le_succ_of_le h2

lemma applyOp_seqsAtLeast {n : Nat} {s : JournalState}
    (h : SeqsAtLeast n s.deltaState) (op : Op) :
    SeqsAtLeast n (applyOp s op).deltaState := by
  cases op with
  | created p =>
    rcases addFileChange_deltaState s
      { sequenceID := 0, time := 0, path1 := p, path2 := none, kind := .created }
      with ⟨ds2, heq, hn, _, hall⟩
    show SeqsAtLeast n (s.addFileChange
      { sequenceID := 0, time := 0, path1 := p, path2 := none, kind := .created }).deltaState
    rw [heq]
    exact seqsAtLeast_step h.1 h.2 hn hall
  | removed p =>
    rcases addFileChange_deltaState s
      { sequenceID := 0, time := 0, path1 := p, path2 := none, kind := .removed }
      with ⟨ds2, heq, hn, _, hall⟩
    show SeqsAtLeast n (s.addFileChange
      { sequenceID := 0, time := 0, path1 := p, path2 := none, kind := .removed }).deltaState
    rw [heq]
    exact seqsAtLeast_step h.1 h.2 hn hall
  | changed p =>
    rcases addFileChange_deltaState s
      { sequenceID := 0, time := 0, path1 := p, path2 := none, kind := .changed }
      with ⟨ds2, heq, hn, _, hall⟩
    show SeqsAtLeast n (s.addFileChange
      { sequenceID := 0, time := 0, path1 := p, path2 := none, kind := .changed }).deltaState
    rw [heq]
    exact seqsAtLeast_step h.1 h.2 hn hall
  | renamed o nn =>
    rcases addFileChange_deltaState s
      { sequenceID := 0, time := 0, path1 := o, path2 := some nn, kind := .renamed }
      with ⟨ds2, heq, hn, _, hall⟩
    show SeqsAtLeast n (s.addFileChange
      { sequenceID := 0, time := 0, path1 := o, path2 := some nn, kind := .renamed }).deltaState
    rw [heq]
    exact seqsAtLeast_step h.1 h.2 hn hall
  | replaced o nn =>
    rcases addFileChange_deltaState s
      { sequenceID := 0, time := 0, path1 := o, path2 := some nn, kind := .replaced }
      with ⟨ds2, heq, hn, _, hall⟩
    show SeqsAtLeast n (s.addFileChange
      { sequenceID := 0, time := 0, path1 := o, path2 := some nn, kind := .replaced }).deltaState
    rw [heq]
    exact seqsAtLeast_step h.1 h.2 hn hall
  | hashUpdate1 t =>
    rcases addHashUpdate_deltaState s
      { sequenceID := 0, time := 0, fromHash := s.deltaState.currentHash, toHash := t,
        uncleanPaths := [] } t with ⟨ds2, heq, hn, _, hall⟩
    show SeqsAtLeast n (s.addHashUpdate
      { sequenceID := 0, time := 0, fromHash := s.deltaState.currentHash, toHash := t,
        uncleanPaths := [] } t).deltaState
    rw [heq]
    exact seqsAtLeast_step h.1 h.2 hn hall
  | hashUpdate2 f t =>
    rcases addHashUpdate_deltaState s
      { sequenceID := 0, time := 0, fromHash := f, toHash := t, uncleanPaths := [] } t
      with ⟨ds2, heq, hn, _, hall⟩
    show SeqsAtLeast n (s.addHashUpdate
      { sequenceID := 0, time := 0, fromHash := f, toHash := t, uncleanPaths := [] } t).deltaState
    rw [heq]
    exact seqsAtLeast_step h.1 h.2 hn hall
  | recordUnclean f t ps =>
    rcases addHashUpdate_deltaState s
      { sequenceID := 0, time := 0, fromHash := f, toHash := t, uncleanPaths := ps } t
      with ⟨ds2, heq, hn, _, hall⟩
    show SeqsAtLeast n (s.addHashUpdate
      { sequenceID := 0, time := 0, fromHash := f, toHash := t, uncleanPaths := ps } t).deltaState
    rw [heq]
    exact seqsAtLeast_step h.1 h.2 hn hall
  | flush =>
    refine ⟨?_, h.2⟩
    intro q hq
    cases hq
  | setMemoryLimit m =>
    show SeqsAtLeast n (truncateIfNecessary { s.deltaState with memoryLimit := m })
    constructor
    · intro q hq
      have hq2 : q ∈ ({ s.deltaState with memoryLimit := m } : DeltaState).allSeqs :=
        (truncate_allSeqs_sublist _).subset hq
      exact h.1 q hq2
    · rw [truncate_nextSequence]
      exact h.2
  | accumulate l =>
    show SeqsAtLeast n (s.accumulateRangeOp l).deltaState
    rw [accumulateRangeOp_deltaState]
    exact ⟨h.1, h.2⟩

lemma runFrom_seqsAtLeast {n : Nat} (ops : List Op) : ∀ s : JournalState,
    SeqsAtLeast n s.deltaState → SeqsAtLeast n (runFrom s ops).deltaState := by
  induction ops with
  | nil => intro s hs; exact hs
  | cons op rest ih =>
    intro s hs
    exact ih (applyOp s op) (applyOp_seqsAtLeast hs op)

/-! ## Characterization of `accumulateRange` -/

/-- The sequence numbers of the deltas included in a range query with
lower bound `L`. -/
def includedSeqs (s : DeltaState) (L : Nat) : List Nat :=
  (s.fileChangeDeltas.filter (fun d => decide (L ≤ d.sequenceID))).map (·.sequenceID)
    ++ (s.hashUpdateDeltas.filter (fun d => decide (L ≤ d.sequenceID))).map (·.sequenceID)

lemma includedSeqs_eq (s : DeltaState) (L : Nat) :
    includedSeqs s L = s.allSeqs.filter (fun q => decide (L ≤ q)) := by
  rw [includedSeqs, DeltaState.allSeqs, List.filter_append]
  congr 1
  · exact map_filter_comm (fun d : FileChangeJournalDelta => d.sequenceID)
      (fun q => decide (L ≤ q)) _
  · exact map_filter_comm (fun d : HashUpdateJournalDelta => d.sequenceID)
      (fun q => decide (L ≤ q)) _

lemma accumulateRange_none_iff (s : DeltaState) (L : Nat) :
    s.accumulateRange L = none ↔ includedSeqs s L = [] := by
  constructor
  · intro h
    rw [DeltaState.accumulateRange] at h
    split at h
    · assumption
    · cases h
  · intro h
    rw [includedSeqs] at h
    rw [DeltaState.accumulateRange]
    rw [if_pos h]

lemma accumulateRange_some_spec (s : DeltaState) (L : Nat) (r : JournalDeltaRange)
    (hr : s.accumulateRange L = some r) :
    r.fromSequence = listMin (includedSeqs s L)
    ∧ r.toSequence = listMax (includedSeqs s L)
    ∧ r.isTruncated = (decide (0 < L) && decide (L < listMin s.allSeqs))
    ∧ includedSeqs s L ≠ [] := by
  rw [DeltaState.accumulateRange] at hr
  split at hr
  · cases hr
  · rename_i hcond
    obtain rfl : _ = r := Option.some.inj hr
    exact ⟨rfl, rfl, rfl, hcond⟩

/-! ## Claim theorems -/

/-- C1: for every journal state and every `limitSequence` `L`,
`accumulateRange(L)` returns null exactly when no stored delta has
`sequenceID ≥ L`; otherwise the summary covers exactly the stored deltas
with `sequenceID ≥ L`: `fromSequence` is the least covered sequence number
(hence `≥ L`) and `toSequence` equals the latest stored sequence
number. -/
theorem claim_C1_accumulate_range_bounds (s : DeltaState) (L : Nat) :
    (s.accumulateRange L = none ↔ ∀ q ∈ s.allSeqs, q < L)
    ∧ ∀ r, s.accumulateRange L = some r →
        L ≤ r.fromSequence
        ∧ r.fromSequence = listMin (s.allSeqs.filter (fun q => decide (L ≤ q)))
        ∧ r.toSequence = listMax s.allSeqs := by
  constructor
  · rw [accumulateRange_none_iff, includedSeqs_eq, List.filter_eq_nil_iff]
    simp only [decide_eq_true_eq, Nat.not_le]
  · intro r hr
    rcases accumulateRange_some_spec s L r hr with ⟨hfrom, hto, _, hne⟩
    rw [includedSeqs_eq] at hfrom hto hne
    have hmem : listMin (s.allSeqs.filter (fun q => decide (L ≤ q)))
        ∈ s.allSeqs.filter (fun q => decide (L ≤ q)) := listMin_mem hne
    have hL : L ≤ listMin (s.allSeqs.filter (fun q => decide (L ≤ q))) := by
      have := (List.mem_filter.mp hmem).2
      simpa using this
    refine ⟨?_, hfrom, ?_⟩
    · rw [hfrom]
      exact hL
    · rw [hto]
      exact listMax_filter_ge s.allSeqs L hne

/-- C1 witness: on the journal with two recorded changes, the range query
at limit 2 covers the second delta only. -/
theorem claim_C1_witness :
    ∃ r, (runOps [Op.changed 10, Op.changed 20]).deltaState.accumulateRange 2 = some r
      ∧ 2 ≤ r.fromSequence
      ∧ r.fromSequence = listMin
          ((runOps [Op.changed 10, Op.changed 20]).deltaState.allSeqs.filter
            (fun q => decide (2 ≤ q)))
      ∧ r.toSequence = listMax (runOps [Op.changed 10, Op.changed 20]).deltaState.allSeqs := by
  refine ⟨_, rfl, (claim_C1_accumulate_range_bounds
    (runOps [Op.changed 10, Op.changed 20]).deltaState 2).2 _ rfl⟩

/-- C2: whenever `accumulateRange(L)` returns a summary, its `isTruncated`
flag is set exactly when `L > 0` and `L` is strictly below every stored
sequence number (i.e. below the smallest one). -/
theorem claim_C2_truncated_iff (s : DeltaState) (L : Nat) (r : JournalDeltaRange)
    (hr : s.accumulateRange L = some r) :
    r.isTruncated = true ↔ 0 < L ∧ ∀ q ∈ s.allSeqs, L < q := by
  rcases accumulateRange_some_spec s L r hr with ⟨_, _, htr, hne⟩
  have hall_ne : s.allSeqs ≠ [] := by
    intro h0
    rw [includedSeqs_eq, h0] at hne
    exact hne rfl
  rw [htr, Bool.and_eq_true, decide_eq_true_eq, decide_eq_true_eq]
  constructor
  · rintro ⟨h0, hlt⟩
    exact ⟨h0, fun q hq => Nat.lt_of_lt_of_le hlt (listMin_le hq)⟩
  · rintro ⟨h0, hall⟩
    exact ⟨h0, hall (listMin s.allSeqs) (listMin_mem hall_ne)⟩

/-- C2 witness: after shrinking the memory limit to one byte and recording
two changes, only the newest delta remains and the range query at limit 1
reports truncation. -/
theorem claim_C2_witness :
    ∃ r, (runOps [Op.setMemoryLimit 1, Op.changed 1, Op.changed 2]).deltaState.accumulateRange 1
        = some r
      ∧ (r.isTruncated = true
          ↔ 0 < 1 ∧ ∀ q ∈ (runOps [Op.setMemoryLimit 1, Op.changed 1,
              Op.changed 2]).deltaState.allSeqs, 1 < q) := by
  refine ⟨_, rfl, claim_C2_truncated_iff
    (runOps [Op.setMemoryLimit 1, Op.changed 1, Op.changed 2]).deltaState 1 _ rfl⟩

lemma pairwise_head_le {a : Nat} {l : List Nat} (hp : (a :: l).Pairwise (· < ·)) :
    ∀ q ∈ a :: l, a ≤ q := by
  intro q hq
  rcases List.mem_cons.mp hq with rfl | hq2
  · exact Nat.le_refl q
  · exact Nat.le_of_lt (List.rel_of_pairwise_cons hp hq2)

/-- C10: on an empty state both front/back selectors answer `false`
without touching any deque element, and on a non-empty state with sorted
deques `getFrontSequenceID` successfully dereferences the front of a
non-empty deque and returns the minimum stored sequence number. -/
theorem claim_C10_front_selection (s : DeltaState) :
    (s.empty = true → s.isFileChangeInFront = false ∧ s.isFileChangeInBack = false)
    ∧ (s.empty = false →
        (s.fileChangeDeltas.map (·.sequenceID)).Pairwise (· < ·) →
        (s.hashUpdateDeltas.map (·.sequenceID)).Pairwise (· < ·) →
        ∃ m, s.getFrontSequenceID = some m ∧ m ∈ s.allSeqs ∧ ∀ q ∈ s.allSeqs, m ≤ q) := by
  constructor
  · intro he
    rcases (empty_iff s).mp he with ⟨hfc, hhu⟩
    constructor
    · simp [DeltaState.isFileChangeInFront, hfc, hhu]
    · simp [DeltaState.isFileChangeInBack, hfc, hhu]
  · intro he hsfc hshu
    cases hfc : s.fileChangeDeltas with
    | nil =>
      cases hhu : s.hashUpdateDeltas with
      | nil =>
        rw [DeltaState.empty, hfc, hhu] at he
        simp at he
      | cons g gr =>
        have hb : s.isFileChangeInFront = false := isFileChangeInFront_fc_nil hfc
        refine ⟨g.sequenceID, ?_, ?_, ?_⟩
        · rw [DeltaState.getFrontSequenceID, hb, if_neg (by simp), hhu]
          rfl
        · rw [DeltaState.allSeqs, hfc, hhu]
          simp
        · intro q hq
          rw [DeltaState.allSeqs, hfc, hhu] at hq
          simp only [List.map_nil, List.nil_append] at hq
          rw [hhu] at hshu
          exact pairwise_head_le hshu q hq
    | cons f fr =>
      cases hhu : s.hashUpdateDeltas with
      | nil =>
        have hb : s.isFileChangeInFront = true :=
          isFileChangeInFront_hu_nil (by rw [hfc]; exact List.cons_ne_nil f fr) hhu
        refine ⟨f.sequenceID, ?_, ?_, ?_⟩
        · rw [DeltaState.getFrontSequenceID, hb, if_pos rfl, hfc]
          rfl
        · rw [DeltaState.allSeqs, hfc, hhu]
          simp
        · intro q hq
          rw [DeltaState.allSeqs, hfc, hhu] at hq
          simp only [List.map_nil, List.append_nil] at hq
          rw [hfc] at hsfc
          exact pairwise_head_le hsfc q hq
      | cons g gr =>
        have hb := isFileChangeInFront_cons_cons hfc hhu
        rw [hfc] at hsfc
        rw [hhu] at hshu
        by_cases hcmp : f.sequenceID < g.sequenceID
        · have hb2 : s.isFileChangeInFront = true := by
            rw [hb, decide_eq_true_eq]
            exact hcmp
          refine ⟨f.sequenceID, ?_, ?_, ?_⟩
          · rw [DeltaState.getFrontSequenceID, hb2, if_pos rfl, hfc]
            rfl
          · rw [DeltaState.allSeqs, hfc]
            simp
          · intro q hq
            rw [DeltaState.allSeqs, hfc, hhu] at hq
            rcases List.mem_append.mp hq with hl | hr
            · exact pairwise_head_le hsfc q hl
            · exact Nat.le_trans (Nat.le_of_lt hcmp) (pairwise_head_le hshu q hr)
        · have hb2 : s.isFileChangeInFront = false := by
            rw [hb, decide_eq_false_iff_not]
            exact hcmp
          refine ⟨g.sequenceID, ?_, ?_, ?_⟩
          · rw [DeltaState.getFrontSequenceID, hb2, if_neg (by simp), hhu]
            rfl
          · rw [DeltaState.allSeqs, hhu]
            simp
          · intro q hq
            rw [DeltaState.allSeqs, hfc, hhu] at hq
            rcases List.mem_append.mp hq with hl | hr
            · exact Nat.le_trans (Nat.le_of_not_lt hcmp) (pairwise_head_le hsfc q hl)
            · exact pairwise_head_le hshu q hr

/-- C10 witness: on the empty journal the selectors answer `false`; on a
journal with one file change (sequence 1) and one hash update
(sequence 2), the front sequence number is 1, the minimum. -/
theorem claim_C10_witness :
    ((runOps []).deltaState.isFileChangeInFront = false
      ∧ (runOps []).deltaState.isFileChangeInBack = false)
    ∧ ∃ m, (runOps [Op.changed 5, Op.hashUpdate1 9]).deltaState.getFrontSequenceID = some m
        ∧ m ∈ (runOps [Op.changed 5, Op.hashUpdate1 9]).deltaState.allSeqs
        ∧ ∀ q ∈ (runOps [Op.changed 5, Op.hashUpdate1 9]).deltaState.allSeqs, m ≤ q := by
  refine ⟨(claim_C10_front_selection (runOps []).deltaState).1 rfl, ?_⟩
  exact (claim_C10_front_selection (runOps [Op.changed 5, Op.hashUpdate1 9]).deltaState).2
    rfl (by decide) (by decide)

/-- On a sorted, duplicate-free, non-empty state, one eviction step
removes exactly the globally smallest sequence number. -/
lemma popFront_min_erase {s : DeltaState} (hs : InvPre s) (h : 0 < s.numDeltas) :
    s.popFront.allSeqs = s.allSeqs.erase (listMin s.allSeqs) := by
  rcases popFront_spec s h with ⟨d, rest, hb, hfc, heq⟩ | ⟨d, rest, hb, hhu, heq⟩
  · have hsfc := hs.sorted_fc
    rw [hfc] at hsfc
    simp only [List.map_cons] at hsfc
    have hseqs : s.allSeqs = d.sequenceID :: (rest.map (·.sequenceID)
        ++ s.hashUpdateDeltas.map (·.sequenceID)) := by
      simp [DeltaState.allSeqs, hfc]
    have hminall : ∀ q ∈ s.allSeqs, d.sequenceID ≤ q := by
      intro q hq
      rw [hseqs] at hq
      rcases List.mem_cons.mp hq with rfl | hq2
      · exact Nat.le_refl _
      · rcases List.mem_append.mp hq2 with hl | hr
        · exact Nat.le_of_lt (List.rel_of_pairwise_cons hsfc hl)
        · cases hhu : s.hashUpdateDeltas with
          | nil =>
            rw [hhu] at hr
            cases hr
          | cons g gr =>
            have hcmp : d.sequenceID < g.sequenceID := by
              have h2 := isFileChangeInFront_cons_cons hfc hhu
              rw [hb] at h2
              exact of_decide_eq_true h2.symm
            have hshu := hs.sorted_hu
            rw [hhu] at hshu
            simp only [List.map_cons] at hshu
            rw [hhu] at hr
            exact Nat.le_trans (Nat.le_of_lt hcmp) (pairwise_head_le hshu q hr)
    have hmin : listMin s.allSeqs = d.sequenceID := by
      refine listMin_eq_of ?_ hminall
      rw [hseqs]
      exact List.mem_cons_self _ _
    rw [hmin, hseqs, List.erase_cons_head, heq]
    simp [DeltaState.allSeqs]
  · have hshu := hs.sorted_hu
    rw [hhu] at hshu
    simp only [List.map_cons] at hshu
    have hseqs : s.allSeqs = s.fileChangeDeltas.map (·.sequenceID)
        ++ (d.sequenceID :: rest.map (·.sequenceID)) := by
      simp [DeltaState.allSeqs, hhu]
    have hminall : ∀ q ∈ s.allSeqs, d.sequenceID ≤ q := by
      intro q hq
      rw [hseqs] at hq
      rcases List.mem_append.mp hq with hl | hr
      · cases hfc : s.fileChangeDeltas with
        | nil =>
          rw [hfc] at hl
          cases hl
        | cons f fr =>
          have hcmp : ¬ f.sequenceID < d.sequenceID := by
            have h2 := isFileChangeInFront_cons_cons hfc hhu
            rw [hb] at h2
            exact of_decide_eq_false h2.symm
          have hsfc := hs.sorted_fc
          rw [hfc] at hsfc
          simp only [List.map_cons] at hsfc
          rw [hfc] at hl
          exact Nat.le_trans (Nat.le_of_not_lt hcmp) (pairwise_head_le hsfc q hl)
      · exact pairwise_head_le hshu q hr
    have hmin : listMin s.allSeqs = d.sequenceID := by
      refine listMin_eq_of ?_ hminall
      rw [hseqs]
      exact List.mem_append.mpr (Or.inr (List.mem_cons_self _ _))
    have hnotmem : d.sequenceID ∉ s.fileChangeDeltas.map (·.sequenceID) := by
      have hnd := hs.nodup
      rw [hseqs] at hnd
      have hdisj := List.disjoint_of_nodup_append hnd
      intro hmem
      exact hdisj hmem (List.mem_cons_self _ _)
    rw [hmin, hseqs, List.erase_append_right _ hnotmem, List.erase_cons_head, heq]
    simp [DeltaState.allSeqs]

/-- C5: after any sequence of operations on a fresh journal, either the
delta memory usage is within the limit or exactly one delta remains; and
the eviction step removes the globally oldest delta, i.e. the one whose
sequence number is the minimum across both deques. -/
theorem claim_C5_memory_bound_and_eviction (ops : List Op) :
    ((runOps ops).deltaState.deltaMemoryUsage ≤ (runOps ops).deltaState.memoryLimit
      ∨ (runOps ops).deltaState.numDeltas = 1)
    ∧ (0 < (runOps ops).deltaState.numDeltas →
        (runOps ops).deltaState.popFront.allSeqs
          = (runOps ops).deltaState.allSeqs.erase (listMin (runOps ops).deltaState.allSeqs)) := by
  refine ⟨(runOps_inv ops).2, ?_⟩
  intro hpos
  exact popFront_min_erase (runOps_inv ops).1 hpos

/-- C5 witness: with a one-byte limit and two recorded changes, a single
delta remains, and the eviction step removes the minimal sequence
number. -/
theorem claim_C5_witness :
    ((runOps [Op.setMemoryLimit 1, Op.changed 1, Op.changed 2]).deltaState.deltaMemoryUsage
        ≤ (runOps [Op.setMemoryLimit 1, Op.changed 1, Op.changed 2]).deltaState.memoryLimit
      ∨ (runOps [Op.setMemoryLimit 1, Op.changed 1, Op.changed 2]).deltaState.numDeltas = 1)
    ∧ (runOps [Op.setMemoryLimit 1, Op.changed 1, Op.changed 2]).deltaState.popFront.allSeqs
        = (runOps [Op.setMemoryLimit 1, Op.changed 1, Op.changed 2]).deltaState.allSeqs.erase
            (listMin (runOps [Op.setMemoryLimit 1, Op.changed 1, Op.changed 2]).deltaState.allSeqs) :=
  ⟨(claim_C5_memory_bound_and_eviction [Op.setMemoryLimit 1, Op.changed 1, Op.changed 2]).1,
   (claim_C5_memory_bound_and_eviction [Op.setMemoryLimit 1, Op.changed 1, Op.changed 2]).2
     (by decide)⟩

lemma lastToHashFrom_no_hash {ops : List Op} (h : ∀ op ∈ ops, op.isHashRecord = false) :
    ∀ z : Hash, lastToHashFrom z ops = z := by
  induction ops with
  | nil => intro z; rfl
  | cons op rest ih =>
    intro z
    have hop := h op (List.mem_cons_self _ _)
    have hrest : ∀ op ∈ rest, op.isHashRecord = false :=
      fun o ho => h o (List.mem_cons_of_mem _ ho)
    cases op with
    | hashUpdate1 t => cases hop
    | hashUpdate2 f t => cases hop
    | recordUnclean f t ps => cases hop
    | created p => exact ih hrest z
    | removed p => exact ih hrest z
    | changed p => exact ih hrest z
    | renamed o n => exact ih hrest z
    | replaced o n => exact ih hrest z
    | flush => exact ih hrest z
    | setMemoryLimit n => exact ih hrest z
    | accumulate l => exact ih hrest z

/-- C7: after any run on a fresh journal, `currentHash` equals the
`toHash` of the most recent hash-update operation of the whole history
(`kZeroHash` when there is none) — in particular eviction and flush never
change it, and a run with no hash-update leaves it at `kZeroHash`. -/
theorem claim_C7_current_hash (ops : List Op) :
    (runOps ops).deltaState.currentHash = lastToHashFrom kZeroHash ops
    ∧ ((∀ op ∈ ops, op.isHashRecord = false) →
        (runOps ops).deltaState.currentHash = kZeroHash) := by
  have h1 : (runOps ops).deltaState.currentHash = lastToHashFrom kZeroHash ops :=
    runFrom_currentHash ops initialJournal
  refine ⟨h1, ?_⟩
  intro hno
  rw [h1]
  exact lastToHashFrom_no_hash hno kZeroHash

/-- C7 witness: a run with two hash updates, an eviction-inducing limit, a
flush and a file change ends with `currentHash` equal to the last recorded
`toHash`; a run with no hash update keeps `kZeroHash`. -/
theorem claim_C7_witness :
    (runOps [Op.hashUpdate1 5, Op.hashUpdate2 5 8, Op.setMemoryLimit 1, Op.flush,
        Op.changed 2]).deltaState.currentHash
      = lastToHashFrom kZeroHash [Op.hashUpdate1 5, Op.hashUpdate2 5 8, Op.setMemoryLimit 1,
          Op.flush, Op.changed 2]
    ∧ (runOps [Op.changed 3, Op.flush]).deltaState.currentHash = kZeroHash :=
  ⟨(claim_C7_current_hash [Op.hashUpdate1 5, Op.hashUpdate2 5 8, Op.setMemoryLimit 1,
      Op.flush, Op.changed 2]).1,
   (claim_C7_current_hash [Op.changed 3, Op.flush]).2 (by decide)⟩

lemma countRecords_take_le (ops : List Op) (m : Nat) :
    countRecords (ops.take m) ≤ countRecords ops := by
  rw [countRecords, countRecords]
  exact ((List.take_sublist m ops).filter Op.isRecord).length_le

lemma countRecords_take_mono (ops : List Op) {m n : Nat} (h : m ≤ n) :
    countRecords (ops.take m) ≤ countRecords (ops.take n) := by
  have : ops.take m = (ops.take n).take m := by
    rw [List.take_take, Nat.min_eq_left h]
  rw [this]
  exact countRecords_take_le (ops.take n) m

lemma countRecords_take_succ (ops : List Op) (i : Nat) (hi : i < ops.length) :
    countRecords (ops.take (i + 1))
      = countRecords (ops.take i) + (if (ops.get ⟨i, hi⟩).isRecord then 1 else 0) := by
  rw [List.take_succ]
  have : ops[i]? = some (ops.get ⟨i, hi⟩) := by
    rw [List.getElem?_eq_getElem hi]
    rfl
  rw [this]
  rw [countRecords, countRecords, List.filter_append]
  rw [List.length_append]
  congr 1
  show (List.filter Op.isRecord [ops.get ⟨i, hi⟩]).length = _
  rw [List.filter_cons]
  cases h : (ops.get ⟨i, hi⟩).isRecord <;> simp [h]

/-- C8: on a fresh journal, `nextSequence` always equals one plus the
number of `record*` calls so far (so it advances even on compaction);
every stored sequence number is at least 1 and strictly below
`nextSequence`; the first assigned number is 1; and assigned numbers grow
strictly along the run. -/
theorem claim_C8_sequence_numbers (ops : List Op) :
    (runOps ops).deltaState.nextSequence = 1 + countRecords ops
    ∧ (∀ q ∈ (runOps ops).deltaState.allSeqs,
        1 ≤ q ∧ q < (runOps ops).deltaState.nextSequence)
    ∧ (∀ i, countRecords (ops.take i) = 0 → assignedSeq ops i = 1)
    ∧ (∀ i j (hi : i < ops.length) (hj : j < ops.length), i < j →
        (ops.get ⟨i, hi⟩).isRecord = true → (ops.get ⟨j, hj⟩).isRecord = true →
        assignedSeq ops i < assignedSeq ops j) := by
  have hnext : ∀ l : List Op, (runOps l).deltaState.nextSequence = 1 + countRecords l := by
    intro l
    rw [runOps, runFrom_nextSequence l initialJournal]
    rfl
  refine ⟨hnext ops, ?_, ?_, ?_⟩
  · intro q hq
    exact ⟨(runOps_inv ops).1.seqs_pos q hq, (runOps_inv ops).1.seqs_lt q hq⟩
  · intro i h0
    rw [assignedSeq, hnext (ops.take i), h0]
  · intro i j hi hj hij hri hrj
    rw [assignedSeq, assignedSeq, hnext (ops.take i), hnext (ops.take j)]
    have hsucc := countRecords_take_succ ops i hi
    rw [hri, if_pos rfl] at hsucc
    have hmono := countRecords_take_mono ops (show i + 1 ≤ j from hij)
    omega

/-- C8 witness: in the run `[changed 4, flush, changed 5]` the sequence
counter ends at 3 (two records), the stored sequence number 3 is in
bounds, the first record is assigned 1, and assignments grow strictly. -/
theorem claim_C8_witness :
    (runOps [Op.changed 4, Op.flush, Op.changed 5]).deltaState.nextSequence
      = 1 + countRecords [Op.changed 4, Op.flush, Op.changed 5]
    ∧ (1 ≤ 2 ∧ 2 < (runOps [Op.changed 4, Op.flush, Op.changed 5]).deltaState.nextSequence)
    ∧ assignedSeq [Op.changed 4, Op.flush, Op.changed 5] 0 = 1
    ∧ assignedSeq [Op.changed 4, Op.flush, Op.changed 5] 0
        < assignedSeq [Op.changed 4, Op.flush, Op.changed 5] 2 :=
  ⟨(claim_C8_sequence_numbers [Op.changed 4, Op.flush, Op.changed 5]).1,
   (claim_C8_sequence_numbers [Op.changed 4, Op.flush, Op.changed 5]).2.1 2 (by decide),
   (claim_C8_sequence_numbers [Op.changed 4, Op.flush, Op.changed 5]).2.2.1 0 (by decide),
   (claim_C8_sequence_numbers [Op.changed 4, Op.flush, Op.changed 5]).2.2.2 0 2
     (by decide) (by decide) (by decide) (by decide) (by decide)⟩

/-- C9: construction logs exactly one `addValue(0)` on the
`truncatedReads` counter, and the state effect of `accumulateRange` logs
one `addValue(1)` exactly when it returns a truncated summary (null or
non-truncated results leave the log unchanged). -/
theorem claim_C9_truncated_reads_counter :
    initialJournal.truncatedReadsLog = [0]
    ∧ ∀ (s : JournalState) (L : Nat),
        (s.accumulateRangeOp L).truncatedReadsLog
          = s.truncatedReadsLog
            ++ (match s.deltaState.accumulateRange L with
                | some r => if r.isTruncated then [1] else []
                | none => []) := by
  refine ⟨rfl, ?_⟩
  intro s L
  cases hm : s.deltaState.accumulateRange L with
  | none => simp [JournalState.accumulateRangeOp, hm]
  | some r =>
    by_cases ht : r.isTruncated = true
    · simp [JournalState.accumulateRangeOp, hm, ht]
    · simp [JournalState.accumulateRangeOp, hm, ht]

/-- C6: `flush` empties both deques, clears the stats, leaves
`currentHash` and `nextSequence` unchanged, and fires one subscriber
notification; and after a flush, any `accumulateRange` over any later
operations whose limit refers to a pre-flush sequence number (`1 ≤ L <
nextSequence` at flush time) reports `isTruncated = true` whenever it
returns a summary. -/
theorem claim_C6_flush (s : JournalState) (ops : List Op) (L : Nat) :
    ((s.flushJournal).deltaState.fileChangeDeltas = []
     ∧ (s.flushJournal).deltaState.hashUpdateDeltas = []
     ∧ (s.flushJournal).deltaState.stats = none
     ∧ (s.flushJournal).deltaState.currentHash = s.deltaState.currentHash
     ∧ (s.flushJournal).deltaState.nextSequence = s.deltaState.nextSequence
     ∧ (s.flushJournal).notifications = s.notifications + 1)
    ∧ (1 ≤ L → L < s.deltaState.nextSequence →
        ∀ r, (runFrom s.flushJournal ops).deltaState.accumulateRange L = some r →
          r.isTruncated = true) := by
  refine ⟨⟨rfl, rfl, rfl, rfl, rfl, rfl⟩, ?_⟩
  intro h1 h2 r hr
  have hsl : SeqsAtLeast s.deltaState.nextSequence (s.flushJournal).deltaState := by
    constructor
    · intro q hq
      cases hq
    · exact Nat.le_refl _
  have hrun := runFrom_seqsAtLeast ops s.flushJournal hsl
  rcases accumulateRange_some_spec _ _ _ hr with ⟨_, _, htr, hne⟩
  have hall_ne : (runFrom s.flushJournal ops).deltaState.allSeqs ≠ [] := by
    intro h0
    rw [includedSeqs_eq, h0] at hne
    exact hne rfl
  have hminmem := listMin_mem hall_ne
  have hlt : L < listMin (runFrom s.flushJournal ops).deltaState.allSeqs :=
    Nat.lt_of_lt_of_le h2 (hrun.1 _ hminmem)
  rw [htr, Bool.and_eq_true]
  exact ⟨decide_eq_true (Nat.lt_of_lt_of_le Nat.zero_lt_one h1), decide_eq_true hlt⟩

/-- C6 witness: three changes, a flush, then one more change: the flush
leaves the counter at 4 and empties the state, and the later range query
at the pre-flush limit 1 is truncated. -/
theorem claim_C6_witness :
    ((runOps [Op.changed 1, Op.changed 2, Op.changed 3]).flushJournal.deltaState.fileChangeDeltas = []
     ∧ (runOps [Op.changed 1, Op.changed 2, Op.changed 3]).flushJournal.deltaState.hashUpdateDeltas = []
     ∧ (runOps [Op.changed 1, Op.changed 2, Op.changed 3]).flushJournal.deltaState.stats = none
     ∧ (runOps [Op.changed 1, Op.changed 2, Op.changed 3]).flushJournal.deltaState.currentHash
         = (runOps [Op.changed 1, Op.changed 2, Op.changed 3]).deltaState.currentHash
     ∧ (runOps [Op.changed 1, Op.changed 2, Op.changed 3]).flushJournal.deltaState.nextSequence
         = (runOps [Op.changed 1, Op.changed 2, Op.changed 3]).deltaState.nextSequence
     ∧ (runOps [Op.changed 1, Op.changed 2, Op.changed 3]).flushJournal.notifications
         = (runOps [Op.changed 1, Op.changed 2, Op.changed 3]).notifications + 1)
    ∧ ∃ r, (runFrom (runOps [Op.changed 1, Op.changed 2, Op.changed 3]).flushJournal
          [Op.changed 9]).deltaState.accumulateRange 1 = some r
        ∧ r.isTruncated = true := by
  refine ⟨(claim_C6_flush (runOps [Op.changed 1, Op.changed 2, Op.changed 3])
    [Op.changed 9] 1).1, ?_⟩
  exact ⟨_, rfl, (claim_C6_flush (runOps [Op.changed 1, Op.changed 2, Op.changed 3])
    [Op.changed 9] 1).2 (by decide) (by decide) _ rfl⟩

lemma truncate_of_numDeltas_le_one {s : DeltaState} (h : s.numDeltas ≤ 1) :
    truncateIfNecessary s = s := by
  have h01 : s.numDeltas = 0 ∨ s.numDeltas = 1 := by omega
  rcases h01 with h0 | h1
  · rw [truncateIfNecessary, h0]
    rfl
  · rw [truncateIfNecessary, h1]
    show (if s.memoryLimit < s.deltaMemoryUsage ∧ 1 < s.numDeltas then
        truncateLoop 0 s.popFront else s) = s
    rw [if_neg]
    omega

lemma replicate_changed_state (p : RelativePath) : ∀ N : Nat, 1 ≤ N →
    (runOps (List.replicate N (Op.changed p))).deltaState.fileChangeDeltas
      = [{ sequenceID := 1, time := 0, path1 := p, path2 := none, kind := .changed }]
    ∧ (runOps (List.replicate N (Op.changed p))).deltaState.hashUpdateDeltas = [] := by
  intro N
  induction N with
  | zero => intro h; exact absurd h (by decide)
  | succ n ih =>
    intro _
    by_cases hn : 1 ≤ n
    · obtain ⟨ihfc, ihhu⟩ := ih hn
      have hsucc : List.replicate (n + 1) (Op.changed p)
          = List.replicate n (Op.changed p) ++ [Op.changed p] := List.replicate_succ' n _
      have hrun : runOps (List.replicate (n + 1) (Op.changed p))
          = applyOp (runOps (List.replicate n (Op.changed p))) (Op.changed p) := by
        rw [hsucc, runOps, runFrom, List.foldl_append]
        rfl
      have hc : tryCompactFileChange
          (runOps (List.replicate n (Op.changed p))).deltaState.fileChangeDeltas
          { sequenceID := (runOps (List.replicate n (Op.changed p))).deltaState.nextSequence,
            time := (runOps (List.replicate n (Op.changed p))).clock,
            path1 := p, path2 := none, kind := .changed } = true := by
        rw [ihfc]
        simp [tryCompactFileChange, isSameAction, FileChangeJournalDelta.isOnePath]
      have heq : (applyOp (runOps (List.replicate n (Op.changed p))) (Op.changed p)).deltaState
          = truncateIfNecessary { (runOps (List.replicate n (Op.changed p))).deltaState with
              nextSequence := (runOps (List.replicate n (Op.changed p))).deltaState.nextSequence + 1 } := by
        show ((runOps (List.replicate n (Op.changed p))).addFileChange
          { sequenceID := 0, time := 0, path1 := p, path2 := none, kind := .changed }).deltaState = _
        simp [JournalState.addFileChange, hc]
      have htrunc : truncateIfNecessary { (runOps (List.replicate n (Op.changed p))).deltaState with
          nextSequence := (runOps (List.replicate n (Op.changed p))).deltaState.nextSequence + 1 }
          = { (runOps (List.replicate n (Op.changed p))).deltaState with
              nextSequence := (runOps (List.replicate n (Op.changed p))).deltaState.nextSequence + 1 } := by
        refine truncate_of_numDeltas_le_one ?_
        show (runOps (List.replicate n (Op.changed p))).deltaState.fileChangeDeltas.length
          + (runOps (List.replicate n (Op.changed p))).deltaState.hashUpdateDeltas.length ≤ 1
        rw [ihfc, ihhu]
        simp
      rw [hrun, heq, htrunc]
      exact ⟨ihfc, ihhu⟩
    · have hn0 : n = 0 := by omega
      subst hn0
      exact ⟨rfl, rfl⟩

lemma accumulateRange_single_changed (s : DeltaState) (d : FileChangeJournalDelta)
    (hfc : s.fileChangeDeltas = [d]) (hhu : s.hashUpdateDeltas = [])
    (hk : d.kind = .changed) :
    ∃ r, s.accumulateRange 0 = some r
      ∧ r.changedFilesInOverlay.lookup d.path1
          = some { existedBefore := true, existedAfter := true } := by
  have hdec : decide (0 ≤ d.sequenceID) = true := decide_eq_true (Nat.zero_le _)
  rw [DeltaState.accumulateRange, hfc, hhu]
  simp only [List.filter_cons, hdec, if_pos, List.filter_nil, List.map_cons, List.map_nil,
    List.nil_append, List.append_nil]
  rw [if_neg (by exact List.cons_ne_nil _ _)]
  refine ⟨_, rfl, ?_⟩
  show (List.foldl applyFileChange [] [d]).lookup d.path1 = _
  rw [List.foldl_cons, List.foldl_nil]
  rw [applyFileChange, hk]
  show (upsertPath [] d.path1 (fun i => { i with existedAfter := true })
    { existedBefore := true, existedAfter := true }).lookup d.path1 = _
  rw [upsertPath]
  rw [List.lookup]
  simp

/-- C3: recording `Changed(p)` `N ≥ 1` consecutive times on a fresh
journal stores exactly one file-change delta (and no hash-update delta),
and the full range summary maps `p` to
`{existedBefore := true, existedAfter := true}` regardless of `N`. -/
theorem claim_C3_changed_compaction (p : RelativePath) (N : Nat) (hN : 1 ≤ N) :
    (runOps (List.replicate N (Op.changed p))).deltaState.fileChangeDeltas.length = 1
    ∧ (runOps (List.replicate N (Op.changed p))).deltaState.hashUpdateDeltas = []
    ∧ ∃ r, (runOps (List.replicate N (Op.changed p))).deltaState.accumulateRange 0 = some r
        ∧ r.changedFilesInOverlay.lookup p
            = some { existedBefore := true, existedAfter := true } := by
  obtain ⟨hfc, hhu⟩ := replicate_changed_state p N hN
  refine ⟨by rw [hfc]; rfl, hhu, ?_⟩
  exact accumulateRange_single_changed _ _ hfc hhu rfl

/-- C3 witness: five consecutive `Changed` records on path 7 leave one
delta and the full summary reports `{true, true}` for path 7. -/
theorem claim_C3_witness :
    (runOps (List.replicate 5 (Op.changed 7))).deltaState.fileChangeDeltas.length = 1
    ∧ (runOps (List.replicate 5 (Op.changed 7))).deltaState.hashUpdateDeltas = []
    ∧ ∃ r, (runOps (List.replicate 5 (Op.changed 7))).deltaState.accumulateRange 0 = some r
        ∧ r.changedFilesInOverlay.lookup 7
            = some { existedBefore := true, existedAfter := true } :=
  claim_C3_changed_compaction 7 5 (by decide)

/-- C4: a hash-update delta is compacted into the tail exactly when the
tail exists and both the tail's and the incoming delta's `uncleanPaths`
are empty, the merge replacing the tail's `toHash` with the incoming
`toHash`; concretely, two `recordHashUpdate` calls on a fresh journal
leave a single stored delta `fromHash = kZeroHash, toHash = H2`. -/
theorem claim_C4_hash_compaction (l : List HashUpdateJournalDelta)
    (d : HashUpdateJournalDelta) :
    ((tryCompactHashUpdate l d).isSome = true
      ↔ ∃ tail, l.getLast? = some tail ∧ tail.uncleanPaths = [] ∧ d.uncleanPaths = [])
    ∧ (∀ tail, l.getLast? = some tail → tail.uncleanPaths = [] → d.uncleanPaths = [] →
        tryCompactHashUpdate l d = some (l.dropLast ++ [{ tail with toHash := d.toHash }]))
    ∧ (∀ H1 H2 : Hash,
        (runOps [Op.hashUpdate1 H1, Op.hashUpdate1 H2]).deltaState.hashUpdateDeltas
          = [{ sequenceID := 1, time := 0, fromHash := kZeroHash, toHash := H2,
               uncleanPaths := [] }]
        ∧ (runOps [Op.hashUpdate1 H1, Op.hashUpdate1 H2]).deltaState.fileChangeDeltas = []) := by
  refine ⟨?_, ?_, ?_⟩
  · constructor
    · intro h
      cases hm : tryCompactHashUpdate l d with
      | none =>
        rw [hm] at h
        cases h
      | some m =>
        rcases tryCompactHU_eq_some hm with ⟨tail, ht, h1, h2, _⟩
        exact ⟨tail, ht, h1, h2⟩
    · rintro ⟨tail, ht, h1, h2⟩
      rw [tryCompactHashUpdate, ht]
      show (if tail.uncleanPaths = [] ∧ d.uncleanPaths = [] then
          some (l.dropLast ++ [{ tail with toHash := d.toHash }]) else none).isSome = true
      rw [if_pos ⟨h1, h2⟩]
      rfl
  · intro tail ht h1 h2
    rw [tryCompactHashUpdate, ht]
    show (if tail.uncleanPaths = [] ∧ d.uncleanPaths = [] then
        some (l.dropLast ++ [{ tail with toHash := d.toHash }]) else none)
      = some (l.dropLast ++ [{ tail with toHash := d.toHash }])
    rw [if_pos ⟨h1, h2⟩]
  · intro H1 H2
    exact ⟨rfl, rfl⟩

/-- C4 witness: compacting a clean update into a clean singleton deque
replaces the tail's `toHash`; two concrete hash updates on a fresh
journal compact into one delta `fromHash = kZeroHash, toHash = 7`. -/
theorem claim_C4_witness :
    tryCompactHashUpdate [⟨1, 0, 0, 5, []⟩] ⟨2, 1, 5, 7, []⟩
      = some (([⟨1, 0, 0, 5, []⟩] : List HashUpdateJournalDelta).dropLast
          ++ [{ (⟨1, 0, 0, 5, []⟩ : HashUpdateJournalDelta) with toHash := 7 }])
    ∧ (runOps [Op.hashUpdate1 5, Op.hashUpdate1 7]).deltaState.hashUpdateDeltas
        = [⟨1, 0, kZeroHash, 7, []⟩] :=
  ⟨(claim_C4_hash_compaction [⟨1, 0, 0, 5, []⟩] ⟨2, 1, 5, 7, []⟩).2.1 _ rfl rfl rfl,
   ((claim_C4_hash_compaction [] ⟨0, 0, 0, 0, []⟩).2.2 5 7).1⟩
